import Mathlib

/-!
Shallow embedding of the `nef` package (TIFF-convention raw-image decoder):
byte-order primitives, tag descriptors and directory reading (`readTags`),
the tag value codec (`Tag.Values`), and the image assembly surface of `File`
(`Bytes`, `processRaw`, `processJpeg`, `IsSupported`, `ImageType`, `GetTag`).

Buffers are `List Nat` with every byte `< 256`; machine integers are `Nat`
with explicit `% 2^32` where the Go `uint32` arithmetic can wrap.  Fallible
operations return `Except Err`.
-/

namespace Nef

/-- Error taxonomy of the decoder.  `truncated` models every short-read error
(`io.ReadFull` / `binary.Read` failures), `notSorted` and `invalidCount` are
the two `DirectoryCorrupt` conditions of `readTags`, `notFound` is `ErrExist`,
`badFormat` is `ErrFormat`, `noImage` is `ErrImage`, `badOrder` and `badMagic`
are the two header-validation failures of `readOrder`. -/
inductive Err where
  | truncated
  | notSorted
  | invalidCount
  | notFound
  | badFormat
  | noImage
  | badOrder
  | badMagic
deriving DecidableEq

/-- `binary.ByteOrder`: little endian (`II`) or big endian (`MM`). -/
inductive ByteOrder where
  | le
  | be
deriving DecidableEq

/-- `order.Uint16` on two bytes. -/
def u16 : ByteOrder → Nat → Nat → Nat
  | .le, b0, b1 => b0 + 256 * b1
  | .be, b0, b1 => b1 + 256 * b0

/-- `order.Uint32` on four bytes. -/
def u32 : ByteOrder → Nat → Nat → Nat → Nat → Nat
  | .le, b0, b1, b2, b3 => b0 + 256 * b1 + 65536 * b2 + 16777216 * b3
  | .be, b0, b1, b2, b3 => b3 + 256 * b2 + 65536 * b1 + 16777216 * b0

/-- `order.PutUint16`: the two bytes of `v mod 2^16`. -/
def putU16 : ByteOrder → Nat → List Nat
  | .le, v => [v % 256, v / 256 % 256]
  | .be, v => [v / 256 % 256, v % 256]

/-- `order.PutUint32`: the four bytes of `v mod 2^32`. -/
def putU32 : ByteOrder → Nat → List Nat
  | .le, v => [v % 256, v / 256 % 256, v / 65536 % 256, v / 16777216 % 256]
  | .be, v => [v / 16777216 % 256, v / 65536 % 256, v / 256 % 256, v % 256]

/-- An exact `n`-byte read at position `p` (the semantics of `io.ReadFull`
on an `io.SectionReader` over the backing buffer, and of `binary.Read`):
all `n` bytes or a short-read failure. -/
def readBytes (buf : List Nat) (p n : Nat) : Option (List Nat) :=
  if p + n ≤ buf.length then some ((buf.drop p).take n) else none

/-- Read a `uint16` at position `p` of `buf` (sequential `binary.Read`). -/
def u16At (buf : List Nat) (o : ByteOrder) (p : Nat) : Option Nat :=
  match buf[p]?, buf[p+1]? with
  | some a, some b => some (u16 o a b)
  | _, _ => none

/-- Read a `uint32` at position `p` of `buf` (sequential `binary.Read`). -/
def u32At (buf : List Nat) (o : ByteOrder) (p : Nat) : Option Nat :=
  match buf[p]?, buf[p+1]?, buf[p+2]?, buf[p+3]? with
  | some a, some b, some c, some d => some (u32 o a b c d)
  | _, _, _, _ => none

/-- `io.SectionReader` + `ioutil.ReadAll`: returns whatever bytes of
`[p, p+n)` exist in the buffer, silently clamping at the end (`ReadAll`
treats `io.EOF` as success, so a short section is NOT an error). -/
def sectionReadAll (buf : List Nat) (p n : Nat) : List Nat :=
  (buf.drop p).take n

/-- Family constants (pointer-tag ids doubling as origin markers). -/
def famTiff : Nat := 0x0
def famExif : Nat := 0x8769
def famNef : Nat := 0x14a
def famNote : Nat := 0x927c
def famGps : Nat := 0x8825

/-- Well-known TIFF tag ids used by the image assembler. -/
def XmpId : Nat := 0x2bc
def CommentId : Nat := 0x9286
def ImageWidthId : Nat := 0x100
def ImageLengthId : Nat := 0x101
def JpegFromRawStartId : Nat := 0x201
def JpegFromRawLengthId : Nat := 0x202
def StripOffsetsId : Nat := 0x111
def RowsPerStripId : Nat := 0x116
def StripByteCountsId : Nat := 0x117
def PhotometricId : Nat := 0x106

/-- `Format.Size()`: byte size of one element of each of the 12 format codes
(Byte/String/SByte/Undef 1, Short/SShort 2, Long/SLong/Float 4,
Rational/SRational/Double 8, anything else 0). -/
def fmtSize (t : Nat) : Nat :=
  if t = 1 ∨ t = 2 ∨ t = 6 ∨ t = 7 then 1
  else if t = 3 ∨ t = 8 then 2
  else if t = 4 ∨ t = 9 ∨ t = 11 then 4
  else if t = 5 ∨ t = 10 ∨ t = 12 then 8
  else 0

/-- One decoded tag record.  `Typ` is the source's `Type` field (a Lean
keyword), a raw `uint16` format code. -/
structure Tag where
  Id : Nat
  Typ : Nat
  Count : Nat
  Offset : Nat
  Raw : List Nat
  family : Nat
  order : ByteOrder
deriving DecidableEq

/-- The zero `Tag` (Go's zero value; Go's nil order is modelled as `le`,
no claim depends on the zero tag's order). -/
def defaultTag : Tag :=
  { Id := 0, Typ := 0, Count := 0, Offset := 0, Raw := [], family := 0, order := .le }

/-- `Tag.Size()`: payload byte size = element size times count. -/
def Tag.Size (t : Tag) : Nat := fmtSize t.Typ * t.Count

/-- `Tag.Uint()`: first element as unsigned, 0 for other formats.  The Go
code indexes `t.Raw` directly (panicking on an impossibly short `Raw`);
the embedding pads with 0, which agrees on every tag produced by
`readTags` since those always carry at least 4 raw bytes. -/
def Tag.Uint (t : Tag) : Nat :=
  if t.Typ = 1 then t.Raw.getD 0 0
  else if t.Typ = 3 then u16 t.order (t.Raw.getD 0 0) (t.Raw.getD 1 0)
  else if t.Typ = 4 then
    u32 t.order (t.Raw.getD 0 0) (t.Raw.getD 1 0) (t.Raw.getD 2 0) (t.Raw.getD 3 0)
  else 0

/-- ASCII whitespace bytes (space, TAB, LF, VT, FF, CR).  Go's
`strings.TrimSpace` decodes UTF-8 runes and trims Unicode whitespace;
on the byte contents relevant here (ASCII and isolated high bytes, which
Go leaves untouched) the two agree. -/
def isSpaceByte (b : Nat) : Bool :=
  b = 32 ∨ b = 9 ∨ b = 10 ∨ b = 11 ∨ b = 12 ∨ b = 13

/-- `strings.TrimSpace` on a byte list. -/
def trimSpaceB (bs : List Nat) : List Nat :=
  ((bs.dropWhile isSpaceByte).reverse.dropWhile isSpaceByte).reverse

/-- `bytes.TrimRight(bs, "\x00")`. -/
def trimRightNul (bs : List Nat) : List Nat :=
  (bs.reverse.dropWhile (· = 0)).reverse

/-- Go's `string(bs)` conversion, one `Char` per byte (injective on byte
lists, which is all the development relies on). -/
def bytesToStr (bs : List Nat) : String :=
  String.mk (bs.map Char.ofNat)

/-- Reinterpret a `w`-bit pattern as a two's-complement signed integer
(the effect of `binary.Read` into a signed Go type). -/
def toSigned (w x : Nat) : Int :=
  if x < w / 2 then (x : Int) else (x : Int) - (w : Int)

/-- `uint32` at offset `p` of a tag's raw bytes, 0-padded past the end
(the source reads sequentially with `binary.Read`, ignoring its error;
the two agree whenever `Raw` holds the full payload, which `readTags`
guarantees). -/
def u32InRaw (t : Tag) (p : Nat) : Nat :=
  u32 t.order (t.Raw.getD p 0) (t.Raw.getD (p+1) 0) (t.Raw.getD (p+2) 0) (t.Raw.getD (p+3) 0)

/-- `uint16` at offset `p` of a tag's raw bytes. -/
def u16InRaw (t : Tag) (p : Nat) : Nat :=
  u16 t.order (t.Raw.getD p 0) (t.Raw.getD (p+1) 0)

/-- `uint64` at offset `p` of a tag's raw bytes. -/
def u64InRaw (t : Tag) (p : Nat) : Nat :=
  match t.order with
  | .le => u32InRaw t p + 4294967296 * u32InRaw t (p+4)
  | .be => u32InRaw t (p+4) + 4294967296 * u32InRaw t p

/-- `decodeShort`: each element rendered in decimal. -/
def decodeShort (t : Tag) : List String :=
  (List.range t.Count).map fun i => toString (u16InRaw t (2*i))

/-- `decodeSignedShort`: each 16-bit pattern as a signed decimal. -/
def decodeSignedShort (t : Tag) : List String :=
  (List.range t.Count).map fun i => toString (toSigned 65536 (u16InRaw t (2*i)))

/-- `decodeLong`. -/
def decodeLong (t : Tag) : List String :=
  (List.range t.Count).map fun i => toString (u32InRaw t (4*i))

/-- `decodeSignedLong`. -/
def decodeSignedLong (t : Tag) : List String :=
  (List.range t.Count).map fun i => toString (toSigned 4294967296 (u32InRaw t (4*i)))

/-- `decodeByte`. -/
def decodeByte (t : Tag) : List String :=
  (List.range t.Count).map fun i => toString (t.Raw.getD i 0)

/-- `decodeRational`: the exact literal pair `num/den`, never reduced. -/
def decodeRational (t : Tag) : List String :=
  (List.range t.Count).map fun i =>
    toString (u32InRaw t (8*i)) ++ "/" ++ toString (u32InRaw t (8*i+4))

/-- `decodeSignedRational`. -/
def decodeSignedRational (t : Tag) : List String :=
  (List.range t.Count).map fun i =>
    toString (toSigned 4294967296 (u32InRaw t (8*i))) ++ "/" ++
      toString (toSigned 4294967296 (u32InRaw t (8*i+4)))

/-- Stand-in rendering for `strconv.FormatFloat` of an IEEE-754 `float32`:
the source formats the decoded value in decimal; decimal float formatting
is outside this embedding, so the rendering is an injective function of
the element's 32-bit pattern.  No claim depends on this rendering. -/
def floatRepr32 (bits : Nat) : String := toString bits

/-- Stand-in rendering for the `float64` case (same caveat as `floatRepr32`). -/
def floatRepr64 (bits : Nat) : String := toString bits

/-- `decodeFloat` (32-bit patterns through `floatRepr32`). -/
def decodeFloat (t : Tag) : List String :=
  (List.range t.Count).map fun i => floatRepr32 (u32InRaw t (4*i))

/-- `decodeDouble` (64-bit patterns through `floatRepr64`). -/
def decodeDouble (t : Tag) : List String :=
  (List.range t.Count).map fun i => floatRepr64 (u64InRaw t (8*i))

/-- `Tag.Values()`: ids `0x2bc`/`0x9286` bypass type dispatch; `String`
yields one NUL-right-trimmed, whitespace-trimmed string; numeric formats
decode per element; the `SByte` and `Undef` cases have empty bodies in the
source (the `Undef` decode is commented out) and so yield an empty list
with no error; only format codes outside the 12-variant enum fail with
`ErrFormat`. -/
def Tag.Values (t : Tag) : Except Err (List String) :=
  if t.Id = XmpId ∨ t.Id = CommentId then .ok [bytesToStr (trimSpaceB t.Raw)]
  else if t.Typ = 2 then .ok [bytesToStr (trimSpaceB (trimRightNul t.Raw))]
  else if t.Typ = 4 then .ok (decodeLong t)
  else if t.Typ = 9 then .ok (decodeSignedLong t)
  else if t.Typ = 3 then .ok (decodeShort t)
  else if t.Typ = 8 then .ok (decodeSignedShort t)
  else if t.Typ = 1 then .ok (decodeByte t)
  else if t.Typ = 6 then .ok []
  else if t.Typ = 7 then .ok []
  else if t.Typ = 5 then .ok (decodeRational t)
  else if t.Typ = 10 then .ok (decodeSignedRational t)
  else if t.Typ = 11 then .ok (decodeFloat t)
  else if t.Typ = 12 then .ok (decodeDouble t)
  else .error .badFormat

/-- `readOrder`: reads the first 4 bytes, `"II"` or `"MM"` plus the magic
`0x2a` encoded in the declared order. -/
def readOrder (buf : List Nat) : Except Err ByteOrder :=
  match readBytes buf 0 4 with
  | none => .error .truncated
  | some intro =>
    if intro.take 2 = [0x49, 0x49] then
      if intro.drop 2 = [0x2a, 0x00] then .ok .le else .error .badMagic
    else if intro.take 2 = [0x4d, 0x4d] then
      if intro.drop 2 = [0x00, 0x2a] then .ok .be else .error .badMagic
    else .error .badOrder

/-- The 12-byte directory-entry descriptor `g` of `readTags`
(`id:u16, type:u16, count:u32, value:u32`, all in directory order). -/
structure RawEntry where
  gId : Nat
  gType : Nat
  gCount : Nat
  gOffset : Nat
deriving DecidableEq

/-- `binary.Read` of one 12-byte descriptor at position `p`: a 12-byte
`ReadFull` (all-or-nothing), then the four fields decoded in the directory
byte order. -/
def readEntryDesc (buf : List Nat) (o : ByteOrder) (p : Nat) : Option RawEntry :=
  match readBytes buf p 12 with
  | some [b0,b1,b2,b3,b4,b5,b6,b7,b8,b9,b10,b11] =>
    some ⟨u16 o b0 b1, u16 o b2 b3, u32 o b4 b5 b6 b7, u32 o b8 b9 b10 b11⟩
  | _ => none

/-- Materialize the `Tag` record from a parsed descriptor:
`Offset = g.Offset + delta` with `uint32` wraparound. -/
def mkTag (g : RawEntry) (delta fam : Nat) (o : ByteOrder) : Tag :=
  { Id := g.gId, Typ := g.gType, Count := g.gCount,
    Offset := (g.gOffset + delta) % 4294967296,
    Raw := [], family := fam, order := o }

/-- Payload materialization of `readTags`: if the payload size exceeds 4,
a bounded `ReadFull` of `Size` bytes at `tag.Offset`; otherwise `Raw` is the
4-byte re-encoding (`order.PutUint32`) of `tag.Offset` itself. -/
def readTagPayload (buf : List Nat) (t : Tag) : Except Err Tag :=
  if 4 < t.Size then
    match readBytes buf t.Offset t.Size with
    | some bs => .ok { t with Raw := bs }
    | none => .error .truncated
  else .ok { t with Raw := putU32 t.order t.Offset }

/-- The entry loop of `readTags`: `n` entries remaining, next descriptor at
byte position `p`, already-decoded tags in `acc` (newest first). -/
def readTagsLoop (buf : List Nat) (o : ByteOrder) (delta fam : Nat) :
    Nat → Nat → List Tag → Except Err (List Tag)
  | 0, _, acc => .ok acc.reverse
  | n+1, p, acc =>
    match readEntryDesc buf o p with
    | none => .error .truncated
    | some g =>
      match acc with
      | last :: _ =>
        if g.gId ≤ last.Id then .error .notSorted
        else if g.gCount = 4294967295 then .error .invalidCount
        else
          match readTagPayload buf (mkTag g delta fam o) with
          | .ok t => readTagsLoop buf o delta fam n (p+12) (t :: acc)
          | .error e => .error e
      | [] =>
        if g.gCount = 4294967295 then .error .invalidCount
        else
          match readTagPayload buf (mkTag g delta fam o) with
          | .ok t => readTagsLoop buf o delta fam n (p+12) (t :: acc)
          | .error e => .error e

/-- `readTags(r, order, at, delta, family)`: seek to `pos`, read a `u16`
entry count, then decode that many 12-byte descriptors. -/
def readTags (buf : List Nat) (o : ByteOrder) (pos delta fam : Nat) :
    Except Err (List Tag) :=
  match u16At buf o pos with
  | none => .error .truncated
  | some n => readTagsLoop buf o delta fam n (pos + 2) []

/-- The loop body of Go's `sort.Search`, with explicit fuel (the source loop
halves `j - i` each step, so any fuel `≥ j - i` yields the fixpoint; every
use below passes `n ≥ j - i`). -/
def searchLoop (pred : Nat → Bool) : Nat → Nat → Nat → Nat
  | 0, i, _ => i
  | fuel+1, i, j =>
    if i < j then
      let h := (i + j) / 2
      if pred h then searchLoop pred fuel i h else searchLoop pred fuel (h+1) j
    else i

/-- `sort.Search(n, pred)`: least index in `[0, n]` at which the monotone
predicate holds. -/
def sortSearch (n : Nat) (pred : Nat → Bool) : Nat :=
  searchLoop pred n 0 n

/-- `tags[i]` as used inside the `sort.Search` closures (always in bounds
there; `defaultTag` stands for the out-of-range case that Go would panic on
and that the loop never reaches). -/
def tagIdx (tags : List Tag) (i : Nat) : Tag := tags.getD i defaultTag

/-- The decoded `File`: backing buffer, byte order, and the four per-family
tag vectors.  The `Index`/`Files` tree-display fields are omitted: no claim
mentions them. -/
structure File where
  buf : List Nat
  order : ByteOrder
  tiff : List Tag
  exif : List Tag
  notes : List Tag
  gps : List Tag
deriving DecidableEq

/-- The binary-search lookup idiom shared by `File.get` and `File.GetTag`:
`sort.Search` for the least index with `tags[i].Id >= id`, then check for an
exact hit (`ErrExist` on miss). -/
def searchTags (tags : List Tag) (id : Nat) : Except Err Tag :=
  let x := sortSearch tags.length (fun i => decide (id ≤ (tagIdx tags i).Id))
  if tags.length ≤ x ∨ (tagIdx tags x).Id ≠ id then .error .notFound
  else .ok (tagIdx tags x)

/-- `File.get(id)`: binary search of the TIFF vector, `ErrExist` on miss. -/
def File.get (f : File) (id : Nat) : Except Err Tag :=
  searchTags f.tiff id

/-- `tag, _ := f.get(id)` — the error-discarding form used by the image
assembler (Go leaves the zero `Tag` on error). -/
def File.getOr (f : File) (id : Nat) : Tag :=
  match f.get id with
  | .ok t => t
  | .error _ => defaultTag

/-- `File.GetTag(id, origin)`: selects the family vector (TIFF/Nef → tiff,
Exif → exif, Note → notes; every other origin — including Gps — falls to the
`default` case and fails `ErrExist` immediately), then binary-searches it. -/
def File.GetTag (f : File) (id origin : Nat) : Except Err Tag :=
  match (if origin = famTiff ∨ origin = famNef then some f.tiff
         else if origin = famExif then some f.exif
         else if origin = famNote then some f.notes
         else none) with
  | none => .error .notFound
  | some tags => searchTags tags id

/-- `File.Has(id)`: binary search of the TIFF vector for presence. -/
def File.Has (f : File) (id : Nat) : Bool :=
  let x := sortSearch f.tiff.length (fun i => decide (id ≤ (tagIdx f.tiff i).Id))
  x < f.tiff.length ∧ (tagIdx f.tiff x).Id = id

/-- `File.IsJpeg()`. -/
def File.IsJpeg (f : File) : Bool :=
  f.Has JpegFromRawStartId ∧ f.Has JpegFromRawLengthId

/-- `File.IsRaw()`. -/
def File.IsRaw (f : File) : Bool :=
  f.Has StripOffsetsId ∧ f.Has RowsPerStripId ∧ f.Has StripByteCountsId

/-- `File.processJpeg()`: bounded `ReadFull` of `length.Offset` bytes at
`start.Offset` (short read → error). -/
def File.processJpeg (f : File) : Except Err (List Nat) :=
  let start := f.getOr JpegFromRawStartId
  let length := f.getOr JpegFromRawLengthId
  match readBytes f.buf start.Offset length.Offset with
  | some bs => .ok bs
  | none => .error .truncated

/-- `block` computation of `processRaw` (lines 504-507): integer quotient
plus one when the remainder is non-zero.  Go divides `uint32`s and panics
when `RowsPerStrip` is 0; every theorem below assumes a non-zero divisor. -/
def blockCountOf (length strip : Nat) : Nat :=
  length / strip + (if length % strip ≠ 0 then 1 else 0)

/-- The strip loop of `processRaw`: the `i`-th iteration reads the `i`-th
`uint32` of each parallel array (`binary.Read`, short read → error) and
appends `sectionReadAll` of that range (which silently clamps at the end of
the backing buffer). -/
def stripLoop (buf offRaw cntRaw : List Nat) (oo co : ByteOrder) :
    Nat → Nat → List Nat → Except Err (List Nat)
  | 0, _, img => .ok img
  | k+1, i, img =>
    match u32At offRaw oo (4*i) with
    | none => .error .truncated
    | some pos =>
      match u32At cntRaw co (4*i) with
      | none => .error .truncated
      | some num => stripLoop buf offRaw cntRaw oo co k (i+1) (img ++ sectionReadAll buf pos num)

/-- `File.processRaw()`. -/
def File.processRaw (f : File) : Except Err (List Nat) :=
  let strip := f.getOr RowsPerStripId
  let offset := f.getOr StripOffsetsId
  let count := f.getOr StripByteCountsId
  let length := f.getOr ImageLengthId
  stripLoop f.buf offset.Raw count.Raw offset.order count.order
    (blockCountOf length.Offset strip.Offset) 0 []

/-- `File.Bytes()`: the byte accessor's dispatch. -/
def File.Bytes (f : File) : Except Err (List Nat) :=
  if f.IsJpeg then f.processJpeg
  else if f.IsRaw then f.processRaw
  else .error .noImage

/-- Which decoder `File.Image()` selects. -/
inductive ImagePath where
  | jpeg
  | raw
deriving DecidableEq

/-- The branch selection of `File.Image()` (lines 372-381): embedded JPEG
first, raw second, `ErrImage` otherwise.  The selected pixel decoders
(`decodeJpeg` pipes through the standard-library JPEG reader) are outside
the embedding; `.ok .jpeg` means the embedded-JPEG path was taken. -/
def File.imagePath (f : File) : Except Err ImagePath :=
  if f.IsJpeg then .ok .jpeg
  else if f.IsRaw then .ok .raw
  else .error .noImage

/-- `File.IsSupported()`: a missing Photometric tag (`f.get` fails only with
`ErrExist`) reports supported; otherwise the code must be one of the seven
photometric constants 0..6 (`ImgBlack`..`ImgYCbCr`). -/
def File.IsSupported (f : File) : Bool :=
  match f.get PhotometricId with
  | .error e => e = .notFound
  | .ok typ => typ.Uint < 7

/-- `File.ImageType()`: a missing Photometric tag yields `"jpeg"` (the only
error `f.get` produces is `ErrExist`); otherwise the photometric code maps
to its raw flavour name, defaulting to `"unsupported"`. -/
def File.ImageType (f : File) : String :=
  match f.get PhotometricId with
  | .error _ => "jpeg"
  | .ok typ =>
    if typ.Uint = 0 ∨ typ.Uint = 1 then "raw/gray"
    else if typ.Uint = 2 then "raw/rgb"
    else if typ.Uint = 3 then "raw/palette"
    else if typ.Uint = 4 then "raw/mask"
    else if typ.Uint = 5 then "raw/cmyk"
    else if typ.Uint = 6 then "raw/ycbcr"
    else "unsupported"

end Nef

deriving instance DecidableEq for Except

namespace Nef

/-- Strict id order between tags (the directory invariant). -/
def idLt (a b : Tag) : Prop := a.Id < b.Id

instance : DecidableRel idLt :=
  fun a b => inferInstanceAs (Decidable (a.Id < b.Id))

/-- The payload rule a tag decoded by `readTags` observably satisfies:
inline raw bytes are the re-encoded (already rebased) `Offset`, external raw
bytes were read at `Offset`. -/
def payloadProp (buf : List Nat) (o : ByteOrder) (t : Tag) : Prop :=
  (t.Size ≤ 4 → t.Raw = putU32 o t.Offset) ∧
  (4 < t.Size → readBytes buf t.Offset t.Size = some t.Raw)

/-! ### Concrete example data used by witnesses and counterexamples -/

/-- A one-entry little-endian directory: id 1, type Short, count 1,
inline value field 5. -/
def dirInline : List Nat := [1,0, 1,0, 3,0, 1,0,0,0, 5,0,0,0]

/-- A three-entry directory with ids 5, 2, 9 (not strictly increasing). -/
def dirUnsorted : List Nat :=
  [3,0,
   5,0, 1,0, 1,0,0,0, 0,0,0,0,
   2,0, 1,0, 1,0,0,0, 0,0,0,0,
   9,0, 1,0, 1,0,0,0, 0,0,0,0]

/-- A one-entry directory whose count is the sentinel `0xFFFFFFFF`. -/
def dirSentinel : List Nat :=
  [1,0, 1,0, 7,0, 255,255,255,255, 0,0,0,0]

/-- A valid two-entry little-endian directory (ids 3 then 7, inline Shorts). -/
def dirTwo : List Nat :=
  [2,0,
   3,0, 3,0, 1,0,0,0, 11,0,0,0,
   7,0, 3,0, 1,0,0,0, 12,0,0,0]

/-- Raw-striped file whose single strip (offset 6, byteCount 8) overruns its
10-byte backing buffer. -/
def cf4 : File :=
  { buf := [50,51,52,53,54,55,56,57,58,59],
    order := .le,
    tiff := [
      { Id := 0x101, Typ := 3, Count := 1, Offset := 1, Raw := [1,0,0,0],
        family := 0, order := .le },
      { Id := 0x111, Typ := 4, Count := 1, Offset := 100, Raw := [6,0,0,0],
        family := 0, order := .le },
      { Id := 0x116, Typ := 3, Count := 1, Offset := 1, Raw := [1,0,0,0],
        family := 0, order := .le },
      { Id := 0x117, Typ := 4, Count := 1, Offset := 101, Raw := [8,0,0,0],
        family := 0, order := .le }],
    exif := [], notes := [], gps := [] }

/-- Raw-striped file with `ImageLength = 5`, `RowsPerStrip = 2` and three
offset/count pairs `(0,4) (4,4) (8,4)` tiling its 12-byte buffer. -/
def cf3 : File :=
  { buf := [70,71,72,73,74,75,76,77,78,79,80,81],
    order := .le,
    tiff := [
      { Id := 0x101, Typ := 3, Count := 1, Offset := 5, Raw := [5,0,0,0],
        family := 0, order := .le },
      { Id := 0x111, Typ := 4, Count := 3, Offset := 100,
        Raw := [0,0,0,0, 4,0,0,0, 8,0,0,0], family := 0, order := .le },
      { Id := 0x116, Typ := 3, Count := 1, Offset := 2, Raw := [2,0,0,0],
        family := 0, order := .le },
      { Id := 0x117, Typ := 4, Count := 3, Offset := 112,
        Raw := [4,0,0,0, 4,0,0,0, 4,0,0,0], family := 0, order := .le }],
    exif := [], notes := [], gps := [] }

/-- A file carrying both the embedded-JPEG marker tags (0x201/0x202) and the
raw-strip marker tags (0x111/0x116/0x117). -/
def cf5 : File :=
  { buf := [9, 8, 7],
    order := .le,
    tiff := [
      { Id := 0x111, Typ := 4, Count := 1, Offset := 102, Raw := [0,0,0,0],
        family := 0, order := .le },
      { Id := 0x116, Typ := 3, Count := 1, Offset := 1, Raw := [1,0,0,0],
        family := 0, order := .le },
      { Id := 0x117, Typ := 4, Count := 1, Offset := 103, Raw := [3,0,0,0],
        family := 0, order := .le },
      { Id := 0x201, Typ := 4, Count := 1, Offset := 0, Raw := [0,0,0,0],
        family := 0, order := .le },
      { Id := 0x202, Typ := 4, Count := 1, Offset := 2, Raw := [2,0,0,0],
        family := 0, order := .le }],
    exif := [], notes := [], gps := [] }

/-- A file whose GPS vector holds a tag with id 5, and whose MakerNote
vector holds a tag with id 7. -/
def cf9 : File :=
  { buf := [], order := .le, tiff := [], exif := [],
    notes := [{ Id := 7, Typ := 1, Count := 1, Offset := 0, Raw := [0,0,0,0],
                family := 0x927c, order := .le }],
    gps := [{ Id := 5, Typ := 1, Count := 1, Offset := 0, Raw := [0,0,0,0],
              family := 0x8825, order := .le }] }

/-- A second Undefined-format, non-bypass-id tag. -/
def undefTag2 : Tag :=
  { Id := 0x9003, Typ := 7, Count := 2, Offset := 0, Raw := [9, 9],
    family := 0x8769, order := .be }

/-- A file with no tags at all (no Photometric, no image marker tags). -/
def cf10 : File :=
  { buf := [], order := .le, tiff := [], exif := [], notes := [], gps := [] }

/-- A Rational tag whose single element has raw components (1, 3). -/
def ratTag1 : Tag :=
  { Id := 0x11a, Typ := 5, Count := 1, Offset := 0,
    Raw := [1,0,0,0, 3,0,0,0], family := 0, order := .le }

/-- An Undefined-format tag whose id is not a bypass id. -/
def undefTag1 : Tag :=
  { Id := 1, Typ := 7, Count := 3, Offset := 0, Raw := [1,2,3],
    family := 0, order := .le }

/-! ### Logical tag content and its byte-order-parameterised encoding

Used to state the endianness-invariance property: the same logical content
serialized once little-endian and once big-endian. -/

/-- `order.PutUint64`: the eight bytes of `v mod 2^64`. -/
def putU64 : ByteOrder → Nat → List Nat
  | .le, v => putU32 .le (v % 4294967296) ++ putU32 .le (v / 4294967296 % 4294967296)
  | .be, v => putU32 .be (v / 4294967296 % 4294967296) ++ putU32 .be (v % 4294967296)

/-- The logical payload of one directory entry, one constructor per format
code of the 12-variant enum.  Numeric elements are stored as their bit
patterns (`Nat`); byte-oriented payloads as raw byte lists. -/
inductive Payload where
  | bytesP (bs : List Nat)
  | ascii (bs : List Nat)
  | shorts (vs : List Nat)
  | longs (vs : List Nat)
  | rationals (vs : List (Nat × Nat))
  | sbytes (bs : List Nat)
  | undef (bs : List Nat)
  | sshorts (vs : List Nat)
  | slongs (vs : List Nat)
  | srationals (vs : List (Nat × Nat))
  | floats (vs : List Nat)
  | doubles (vs : List Nat)
deriving DecidableEq

/-- The format code written into the descriptor. -/
def Payload.format : Payload → Nat
  | .bytesP _ => 1
  | .ascii _ => 2
  | .shorts _ => 3
  | .longs _ => 4
  | .rationals _ => 5
  | .sbytes _ => 6
  | .undef _ => 7
  | .sshorts _ => 8
  | .slongs _ => 9
  | .srationals _ => 10
  | .floats _ => 11
  | .doubles _ => 12

/-- The element count written into the descriptor. -/
def Payload.count : Payload → Nat
  | .bytesP bs => bs.length
  | .ascii bs => bs.length
  | .shorts vs => vs.length
  | .longs vs => vs.length
  | .rationals vs => vs.length
  | .sbytes bs => bs.length
  | .undef bs => bs.length
  | .sshorts vs => vs.length
  | .slongs vs => vs.length
  | .srationals vs => vs.length
  | .floats vs => vs.length
  | .doubles vs => vs.length

/-- Payload byte size (`type.byteSize * count`). -/
def Payload.size (p : Payload) : Nat := fmtSize p.format * p.count

/-- The payload bytes in the given byte order. -/
def Payload.encode (o : ByteOrder) : Payload → List Nat
  | .bytesP bs => bs
  | .ascii bs => bs
  | .shorts vs => (vs.map (putU16 o)).flatten
  | .longs vs => (vs.map (putU32 o)).flatten
  | .rationals vs => (vs.map (fun v => putU32 o v.1 ++ putU32 o v.2)).flatten
  | .sbytes bs => bs
  | .undef bs => bs
  | .sshorts vs => (vs.map (putU16 o)).flatten
  | .slongs vs => (vs.map (putU32 o)).flatten
  | .srationals vs => (vs.map (fun v => putU32 o v.1 ++ putU32 o v.2)).flatten
  | .floats vs => (vs.map (putU32 o)).flatten
  | .doubles vs => (vs.map (putU64 o)).flatten

/-- Element-range constraints making the payload byte-encodable. -/
def Payload.wf : Payload → Prop
  | .bytesP bs => ∀ b ∈ bs, b < 256
  | .ascii bs => ∀ b ∈ bs, b < 256
  | .shorts vs => ∀ v ∈ vs, v < 65536
  | .longs vs => ∀ v ∈ vs, v < 4294967296
  | .rationals vs => ∀ v ∈ vs, v.1 < 4294967296 ∧ v.2 < 4294967296
  | .sbytes bs => ∀ b ∈ bs, b < 256
  | .undef bs => ∀ b ∈ bs, b < 256
  | .sshorts vs => ∀ v ∈ vs, v < 65536
  | .slongs vs => ∀ v ∈ vs, v < 4294967296
  | .srationals vs => ∀ v ∈ vs, v.1 < 4294967296 ∧ v.2 < 4294967296
  | .floats vs => ∀ v ∈ vs, v < 4294967296
  | .doubles vs => ∀ v ∈ vs, v < 18446744073709551616

/-- The value strings `Tag.Values` recovers for this payload (the logical
reading of the content, independent of the byte order used to store it). -/
def Payload.specValues : Payload → List String
  | .bytesP bs => bs.map toString
  | .ascii bs => [bytesToStr (trimSpaceB (trimRightNul bs))]
  | .shorts vs => vs.map toString
  | .longs vs => vs.map toString
  | .rationals vs => vs.map (fun v => toString v.1 ++ "/" ++ toString v.2)
  | .sbytes _ => []
  | .undef _ => []
  | .sshorts vs => vs.map (fun v => toString (toSigned 65536 v))
  | .slongs vs => vs.map (fun v => toString (toSigned 4294967296 v))
  | .srationals vs => vs.map (fun v =>
      toString (toSigned 4294967296 v.1) ++ "/" ++ toString (toSigned 4294967296 v.2))
  | .floats vs => vs.map floatRepr32
  | .doubles vs => vs.map floatRepr64

/-- One 12-byte descriptor: id, format, count, then either the inline
payload padded to 4 bytes or the `uint32` external offset `ext`. -/
def encDesc (o : ByteOrder) (id : Nat) (p : Payload) (ext : Nat) : List Nat :=
  putU16 o id ++ putU16 o p.format ++ putU32 o p.count ++
    (if p.size ≤ 4 then p.encode o ++ List.replicate (4 - p.size) 0 else putU32 o ext)

/-- The descriptor block: external payloads are laid out in entry order
starting at `ext`. -/
def encDescs (o : ByteOrder) : List (Nat × Payload) → Nat → List Nat
  | [], _ => []
  | (id, p) :: es, ext =>
    encDesc o id p ext ++ encDescs o es (if p.size ≤ 4 then ext else ext + p.size)

/-- The external payload area, in entry order. -/
def encExt (o : ByteOrder) : List (Nat × Payload) → List Nat
  | [] => []
  | (_, p) :: es => (if p.size ≤ 4 then [] else p.encode o) ++ encExt o es

/-- Total size of the external payload area. -/
def extLen : List (Nat × Payload) → Nat
  | [] => 0
  | (_, p) :: es => (if p.size ≤ 4 then 0 else p.size) + extLen es

/-- The 4-byte file header for each order (`II`+magic / `MM`+magic). -/
def headerBytes : ByteOrder → List Nat
  | .le => [0x49, 0x49, 0x2a, 0x00]
  | .be => [0x4d, 0x4d, 0x00, 0x2a]

/-- A whole encoded file: header, then at offset 4 the directory (`u16`
entry count followed by the descriptors), then the external payload area
(which therefore starts at `6 + 12 * n`). -/
def encodeFile (o : ByteOrder) (es : List (Nat × Payload)) : List Nat :=
  headerBytes o ++ putU16 o es.length ++
    encDescs o es (6 + 12 * es.length) ++ encExt o es

/-- Well-formed content: strictly increasing ids below 2^16 avoiding the
two bypass ids, fewer than 2^16 entries, every external offset
representable as `uint32`, element ranges respected, and no count equal to
the rejected sentinel. -/
def wfEntries (es : List (Nat × Payload)) : Prop :=
  List.Chain' (fun a b => a.1 < b.1) es ∧
  es.length < 65536 ∧
  6 + 12 * es.length + extLen es < 4294967296 ∧
  ∀ e ∈ es, e.1 < 65536 ∧ e.1 ≠ XmpId ∧ e.1 ≠ CommentId ∧
    e.2.wf ∧ e.2.count < 4294967295

/-- The 4 bytes sitting in an inline descriptor's value field. -/
def inlineBytes (o : ByteOrder) (p : Payload) : List Nat :=
  p.encode o ++ List.replicate (4 - p.size) 0

/-- The `Tag` record `readTags` materializes for one encoded entry. -/
def encTag (o : ByteOrder) (fam id : Nat) (p : Payload) (ext : Nat) : Tag :=
  if p.size ≤ 4 then
    { Id := id, Typ := p.format, Count := p.count,
      Offset := u32 o ((inlineBytes o p).getD 0 0) ((inlineBytes o p).getD 1 0)
        ((inlineBytes o p).getD 2 0) ((inlineBytes o p).getD 3 0),
      Raw := inlineBytes o p, family := fam, order := o }
  else
    { Id := id, Typ := p.format, Count := p.count, Offset := ext,
      Raw := p.encode o, family := fam, order := o }

/-- The tag list `readTags` recovers from an encoded directory. -/
def encTags (o : ByteOrder) (fam : Nat) : List (Nat × Payload) → Nat → List Tag
  | [], _ => []
  | (id, p) :: es, ext =>
    encTag o fam id p ext :: encTags o fam es (if p.size ≤ 4 then ext else ext + p.size)

/-- The logical view of a decoded tag: id, count, and decoded values. -/
def tagView (t : Tag) : Nat × Nat × Except Err (List String) :=
  (t.Id, t.Count, t.Values)

/-- The logical view an entry's content should decode to. -/
def entryView (e : Nat × Payload) : Nat × Nat × Except Err (List String) :=
  (e.1, e.2.count, .ok e.2.specValues)

/-- Single-entry content at the bypass id 0x2bc with a Short payload — the
content refuting order-independence of the decoded value strings. -/
def es6 : List (Nat × Payload) := [(0x2bc, .shorts [1])]

/-- Two-entry content (inline Short, external Rational) used as the
endianness-invariance witness. -/
def es6w : List (Nat × Payload) := [(1, .shorts [5]), (3, .rationals [(1, 3)])]

/-! ### Correctness of the `sort.Search` loop -/

theorem searchLoop_spec (pred : Nat → Bool) :
    ∀ (fuel i j : Nat), j - i ≤ fuel → i ≤ j →
    (∀ a b, i ≤ a → a ≤ b → b < j → pred a = true → pred b = true) →
    i ≤ searchLoop pred fuel i j ∧ searchLoop pred fuel i j ≤ j ∧
      (∀ k, i ≤ k → k < searchLoop pred fuel i j → pred k = false) ∧
      (searchLoop pred fuel i j < j → pred (searchLoop pred fuel i j) = true) := by
  intro fuel
  induction fuel with
  | zero =>
    intro i j hf hij _
    have : i = j := by omega
    subst this
    refine ⟨Nat.le_refl _, Nat.le_refl _, ?_, ?_⟩
    · intro k hk hik
      exact absurd (Nat.lt_of_le_of_lt hk hik) (Nat.lt_irrefl _)
    · intro h
      exact absurd h (Nat.lt_irrefl _)
  | succ fuel ih =>
    intro i j hf hij mono
    by_cases hlt : i < j
    · have hh1 : i ≤ (i + j) / 2 := by omega
      have hh2 : (i + j) / 2 < j := by omega
      simp only [searchLoop, if_pos hlt]
      by_cases hp : pred ((i + j) / 2) = true
      · simp only [hp, if_pos]
        have := ih i ((i + j) / 2) (by omega) hh1
          (fun a b ha hab hb hpa => mono a b ha hab (by omega) hpa)
        refine ⟨this.1, by omega, this.2.2.1, ?_⟩
        intro hx
        rcases Nat.lt_or_ge (searchLoop pred fuel i ((i + j) / 2)) ((i + j) / 2) with h | h
        · exact this.2.2.2 h
        · have : searchLoop pred fuel i ((i + j) / 2) = (i + j) / 2 := by omega
          rw [this]; exact hp
      · simp only [hp, if_neg, Bool.false_eq_true, not_false_eq_true]
        have := ih ((i + j) / 2 + 1) j (by omega) (by omega)
          (fun a b ha hab hb hpa => mono a b (by omega) hab hb hpa)
        refine ⟨by omega, this.2.1, ?_, this.2.2.2⟩
        intro k hk hklt
        rcases Nat.lt_or_ge k ((i + j) / 2 + 1) with h | h
        · by_contra hc
          have hpk : pred k = true := by
            cases hpk : pred k with
            | true => rfl
            | false => exact absurd hpk hc
          exact hp (mono k ((i + j) / 2) hk (by omega) hh2 hpk)
        · exact this.2.2.1 k h hklt
    · have : i = j := by omega
      subst this
      simp only [searchLoop, if_neg hlt]
      refine ⟨Nat.le_refl _, Nat.le_refl _, ?_, ?_⟩
      · intro k hk hik
        exact absurd (Nat.lt_of_le_of_lt hk hik) (Nat.lt_irrefl _)
      · intro h
        exact absurd h (Nat.lt_irrefl _)

/-- For a strictly id-sorted tag vector, the `sort.Search` call used by
`get`/`GetTag`/`Has` either lands exactly on a tag with the requested id,
or witnesses that no tag of that id exists. -/
theorem sortSearch_id_spec (tags : List Tag) (id : Nat)
    (hs : List.Chain' idLt tags) :
    (sortSearch tags.length (fun i => decide (id ≤ (tagIdx tags i).Id)) < tags.length ∧
      (tagIdx tags (sortSearch tags.length (fun i => decide (id ≤ (tagIdx tags i).Id)))).Id = id ∧
      tagIdx tags (sortSearch tags.length (fun i => decide (id ≤ (tagIdx tags i).Id))) ∈ tags) ∨
    ((tags.length ≤ sortSearch tags.length (fun i => decide (id ≤ (tagIdx tags i).Id)) ∨
      (tagIdx tags (sortSearch tags.length (fun i => decide (id ≤ (tagIdx tags i).Id)))).Id ≠ id) ∧
      ∀ t ∈ tags, t.Id ≠ id) := by
  haveI : IsTrans Tag idLt := ⟨fun _ _ _ => Nat.lt_trans⟩
  have hpw : List.Pairwise idLt tags := List.chain'_iff_pairwise.mp hs
  have hmonoId : ∀ a b, a ≤ b → b < tags.length →
      (tagIdx tags a).Id ≤ (tagIdx tags b).Id := by
    intro a b hab hb
    rcases Nat.lt_or_ge a b with h | h
    · have := (List.pairwise_iff_getElem.mp hpw) a b (by omega) hb h
      simp only [tagIdx, List.getD_eq_getElem _ _ (by omega : a < tags.length),
        List.getD_eq_getElem _ _ hb]
      exact Nat.le_of_lt this
    · have : a = b := by omega
      subst this; exact Nat.le_refl _
  have hspec := searchLoop_spec (fun i => decide (id ≤ (tagIdx tags i).Id))
    tags.length 0 tags.length (by omega) (by omega)
    (by
      intro a b _ hab hb hpa
      simp only [decide_eq_true_eq] at hpa ⊢
      exact Nat.le_trans hpa (hmonoId a b hab hb))
  set x := searchLoop (fun i => decide (id ≤ (tagIdx tags i).Id)) tags.length 0 tags.length with hxdef
  have hxeq : sortSearch tags.length (fun i => decide (id ≤ (tagIdx tags i).Id)) = x := rfl
  rw [hxeq]
  by_cases hfound : x < tags.length ∧ (tagIdx tags x).Id = id
  · left
    refine ⟨hfound.1, hfound.2, ?_⟩
    simp only [tagIdx, List.getD_eq_getElem _ _ hfound.1]
    exact List.getElem_mem _
  · right
    refine ⟨by omega, ?_⟩
    intro t ht hid
    rcases List.mem_iff_getElem.mp ht with ⟨k, hk, hkt⟩
    have htk : tagIdx tags k = t := by
      simp only [tagIdx, List.getD_eq_getElem _ _ hk, hkt]
    rcases Nat.lt_or_ge k x with h | h
    · have := hspec.2.2.1 k (by omega) h
      simp only [decide_eq_false_iff_not] at this
      rw [htk, hid] at this
      omega
    · have hxlt : x < tags.length := by omega
      have hpx := hspec.2.2.2 hxlt
      simp only [decide_eq_true_eq] at hpx
      have := hmonoId x k h hk
      rw [htk, hid] at this
      have : (tagIdx tags x).Id = id := by omega
      exact hfound ⟨hxlt, this⟩

/-! ### Byte-level roundtrip lemmas -/

theorem length_putU16 (o : ByteOrder) (v : Nat) : (putU16 o v).length = 2 := by
  cases o <;> simp [putU16]

theorem length_putU32 (o : ByteOrder) (v : Nat) : (putU32 o v).length = 4 := by
  cases o <;> simp [putU32]

theorem putU16_lt (o : ByteOrder) (v : Nat) : ∀ b ∈ putU16 o v, b < 256 := by
  cases o <;> simp [putU16] <;> omega

theorem putU32_lt (o : ByteOrder) (v : Nat) : ∀ b ∈ putU32 o v, b < 256 := by
  cases o <;> simp [putU32] <;> omega

theorem u16_putU16 (o : ByteOrder) (v : Nat) :
    u16 o ((putU16 o v).getD 0 0) ((putU16 o v).getD 1 0) = v % 65536 := by
  cases o <;> simp [putU16, u16, List.getD] <;> omega

theorem u32_putU32 (o : ByteOrder) (v : Nat) :
    u32 o ((putU32 o v).getD 0 0) ((putU32 o v).getD 1 0)
      ((putU32 o v).getD 2 0) ((putU32 o v).getD 3 0) = v % 4294967296 := by
  cases o <;> simp [putU32, u32, List.getD] <;> omega

theorem putU32_u32 (o : ByteOrder) (b0 b1 b2 b3 : Nat)
    (h0 : b0 < 256) (h1 : b1 < 256) (h2 : b2 < 256) (h3 : b3 < 256) :
    putU32 o (u32 o b0 b1 b2 b3) = [b0, b1, b2, b3] := by
  cases o <;> simp [putU32, u32] <;> omega

/-- Indexing into a concatenation of fixed-width encoded chunks: byte
`w*i + j` of `flatten (vs.map enc) ++ tail` is byte `j` of `enc vs[i]`. -/
theorem flatten_fixed_getElem {α : Type} (w : Nat) (enc : α → List Nat)
    (hlen : ∀ v, (enc v).length = w) (vs : List α) (tail : List Nat) :
    ∀ (i j : Nat), (hi : i < vs.length) → j < w →
    ((vs.map enc).flatten ++ tail)[w * i + j]? = (enc vs[i])[j]? := by
  induction vs generalizing tail with
  | nil => intro i j hi _; exact absurd hi (by simp)
  | cons v vt ih =>
    intro i j hi hj
    simp only [List.map_cons, List.flatten_cons, List.append_assoc]
    cases i with
    | zero =>
      rw [Nat.mul_zero, Nat.zero_add, List.getElem?_append_left (by rw [hlen]; exact hj)]
      simp
    | succ i =>
      have hidx : w * (i + 1) + j = (enc v).length + (w * i + j) := by
        rw [hlen]; ring
      rw [hidx, List.getElem?_append_right (by omega)]
      have : (enc v).length + (w * i + j) - (enc v).length = w * i + j := by omega
      rw [this]
      have := ih tail i j (by simpa using hi) hj
      simpa using this

/-- Reading the `i`-th `uint32` out of a flattened `putU32` array. -/
theorem u32At_flatten (o : ByteOrder) (vs : List Nat) (i : Nat)
    (hi : i < vs.length) (hb : ∀ v ∈ vs, v < 4294967296) :
    u32At ((vs.map (putU32 o)).flatten) o (4 * i) = some vs[i] := by
  have hget : ∀ j, j < 4 →
      ((vs.map (putU32 o)).flatten)[4 * i + j]? = (putU32 o vs[i])[j]? := by
    intro j hj
    have := flatten_fixed_getElem 4 (putU32 o) (length_putU32 o) vs [] i j hi hj
    simpa using this
  have h0 := hget 0 (by omega)
  have h1 := hget 1 (by omega)
  have h2 := hget 2 (by omega)
  have h3 := hget 3 (by omega)
  rw [Nat.add_zero] at h0
  have hvlt : vs[i] < 4294967296 := hb _ (List.getElem_mem hi)
  unfold u32At
  rw [h0, h1, h2, h3]
  cases o <;> simp [putU32, u32] <;> omega

/-! ### Encoder length and range facts -/

theorem length_putU64 (o : ByteOrder) (v : Nat) : (putU64 o v).length = 8 := by
  cases o <;> simp [putU64, length_putU32]

theorem putU64_lt (o : ByteOrder) (v : Nat) : ∀ b ∈ putU64 o v, b < 256 := by
  cases o <;>
    · intro b hb
      rcases List.mem_append.mp hb with h | h
      · exact putU32_lt _ _ b h
      · exact putU32_lt _ _ b h

theorem u32_lt (o : ByteOrder) (b0 b1 b2 b3 : Nat)
    (h0 : b0 < 256) (h1 : b1 < 256) (h2 : b2 < 256) (h3 : b3 < 256) :
    u32 o b0 b1 b2 b3 < 4294967296 := by
  cases o <;> simp [u32] <;> omega

theorem length_flatten_fixed {α : Type} (w : Nat) (enc : α → List Nat)
    (hlen : ∀ v, (enc v).length = w) (vs : List α) :
    ((vs.map enc).flatten).length = w * vs.length := by
  induction vs with
  | nil => simp
  | cons v vt ih =>
    simp only [List.map_cons, List.flatten_cons, List.length_append, hlen, ih,
      List.length_cons]
    ring

theorem flatten_fixed_bytes_lt {α : Type} (enc : α → List Nat) (vs : List α)
    (h : ∀ v ∈ vs, ∀ b ∈ enc v, b < 256) :
    ∀ b ∈ (vs.map enc).flatten, b < 256 := by
  intro b hb
  rcases List.mem_flatten.mp hb with ⟨l, hl, hbl⟩
  rcases List.mem_map.mp hl with ⟨v, hv, rfl⟩
  exact h v hv b hbl

theorem Payload.encode_length (o : ByteOrder) (p : Payload) :
    (p.encode o).length = p.size := by
  cases p with
  | bytesP bs => exact (Nat.one_mul _).symm
  | ascii bs => exact (Nat.one_mul _).symm
  | sbytes bs => exact (Nat.one_mul _).symm
  | undef bs => exact (Nat.one_mul _).symm
  | shorts vs => exact length_flatten_fixed 2 (putU16 o) (length_putU16 o) vs
  | sshorts vs => exact length_flatten_fixed 2 (putU16 o) (length_putU16 o) vs
  | longs vs => exact length_flatten_fixed 4 (putU32 o) (length_putU32 o) vs
  | slongs vs => exact length_flatten_fixed 4 (putU32 o) (length_putU32 o) vs
  | floats vs => exact length_flatten_fixed 4 (putU32 o) (length_putU32 o) vs
  | doubles vs => exact length_flatten_fixed 8 (putU64 o) (length_putU64 o) vs
  | rationals vs =>
    exact length_flatten_fixed 8 (fun v : Nat × Nat => putU32 o v.1 ++ putU32 o v.2)
      (fun v => by simp [length_putU32]) vs
  | srationals vs =>
    exact length_flatten_fixed 8 (fun v : Nat × Nat => putU32 o v.1 ++ putU32 o v.2)
      (fun v => by simp [length_putU32]) vs

theorem Payload.format_lt (p : Payload) : p.format < 65536 := by
  cases p <;> simp [Payload.format]

theorem Payload.encode_bytes_lt (o : ByteOrder) (p : Payload) (hwf : p.wf) :
    ∀ b ∈ p.encode o, b < 256 := by
  cases p with
  | bytesP bs => exact hwf
  | ascii bs => exact hwf
  | sbytes bs => exact hwf
  | undef bs => exact hwf
  | shorts vs => exact flatten_fixed_bytes_lt _ _ (fun v _ => putU16_lt o v)
  | sshorts vs => exact flatten_fixed_bytes_lt _ _ (fun v _ => putU16_lt o v)
  | longs vs => exact flatten_fixed_bytes_lt _ _ (fun v _ => putU32_lt o v)
  | slongs vs => exact flatten_fixed_bytes_lt _ _ (fun v _ => putU32_lt o v)
  | floats vs => exact flatten_fixed_bytes_lt _ _ (fun v _ => putU32_lt o v)
  | doubles vs => exact flatten_fixed_bytes_lt _ _ (fun v _ => putU64_lt o v)
  | rationals vs =>
    refine flatten_fixed_bytes_lt _ _ (fun v _ b hb => ?_)
    rcases List.mem_append.mp hb with h | h
    · exact putU32_lt _ _ b h
    · exact putU32_lt _ _ b h
  | srationals vs =>
    refine flatten_fixed_bytes_lt _ _ (fun v _ b hb => ?_)
    rcases List.mem_append.mp hb with h | h
    · exact putU32_lt _ _ b h
    · exact putU32_lt _ _ b h

theorem inlineBytes_length (o : ByteOrder) (p : Payload) (h : p.size ≤ 4) :
    (inlineBytes o p).length = 4 := by
  simp [inlineBytes, Payload.encode_length]
  omega

theorem inlineBytes_lt (o : ByteOrder) (p : Payload) (hwf : p.wf) :
    ∀ b ∈ inlineBytes o p, b < 256 := by
  intro b hb
  rcases List.mem_append.mp hb with h | h
  · exact Payload.encode_bytes_lt o p hwf b h
  · rw [List.eq_of_mem_replicate h]
    omega

theorem encDesc_length (o : ByteOrder) (id : Nat) (p : Payload) (ext : Nat) :
    (encDesc o id p ext).length = 12 := by
  unfold encDesc
  by_cases h : p.size ≤ 4
  · rw [if_pos h]
    simp [length_putU16, length_putU32, Payload.encode_length]
    omega
  · rw [if_neg h]
    simp [length_putU16, length_putU32]

theorem encDescs_length (o : ByteOrder) :
    ∀ (es : List (Nat × Payload)) (ext : Nat),
      (encDescs o es ext).length = 12 * es.length := by
  intro es
  induction es with
  | nil => intro ext; simp [encDescs]
  | cons e et ih =>
    intro ext
    obtain ⟨id, p⟩ := e
    simp only [encDescs, List.length_append, encDesc_length, ih, List.length_cons]
    ring

theorem encExt_length (o : ByteOrder) :
    ∀ es : List (Nat × Payload), (encExt o es).length = extLen es := by
  intro es
  induction es with
  | nil => simp [encExt, extLen]
  | cons e et ih =>
    obtain ⟨id, p⟩ := e
    by_cases h : p.size ≤ 4
    · simp [encExt, extLen, if_pos h, ih]
    · simp [encExt, extLen, if_neg h, ih, Payload.encode_length]

theorem encodeFile_length (o : ByteOrder) (es : List (Nat × Payload)) :
    (encodeFile o es).length = 6 + 12 * es.length + extLen es := by
  unfold encodeFile
  cases o <;>
    simp [headerBytes, length_putU16, encDescs_length, encExt_length] <;> ring

theorem extLen_cons (id : Nat) (p : Payload) (es : List (Nat × Payload)) :
    extLen ((id, p) :: es) = (if p.size ≤ 4 then 0 else p.size) + extLen es := rfl

/-! ### Closed form of the strip-assembly loop -/

theorem sectionReadAll_length (buf : List Nat) (p n : Nat) :
    (sectionReadAll buf p n).length = min n (buf.length - p) := by
  simp [sectionReadAll]

theorem stripLoop_spec (buf : List Nat) (oo co : ByteOrder)
    (offs cnts : List Nat)
    (hbo : ∀ v ∈ offs, v < 4294967296) (hbc : ∀ v ∈ cnts, v < 4294967296)
    (hlen : cnts.length = offs.length) :
    ∀ (k i : Nat) (acc : List Nat), i + k = offs.length →
    stripLoop buf ((offs.map (putU32 oo)).flatten) ((cnts.map (putU32 co)).flatten)
        oo co k i acc
      = .ok (acc ++ (((offs.drop i).zip (cnts.drop i)).map
          (fun pc => sectionReadAll buf pc.1 pc.2)).flatten) := by
  intro k
  induction k with
  | zero =>
    intro i acc hik
    rw [List.drop_eq_nil_of_le (by omega)]
    simp [stripLoop]
  | succ k ih =>
    intro i acc hik
    have hi : i < offs.length := by omega
    have hic : i < cnts.length := by omega
    unfold stripLoop
    simp only [u32At_flatten oo offs i hi hbo, u32At_flatten co cnts i hic hbc]
    rw [ih (i+1) (acc ++ sectionReadAll buf offs[i] cnts[i]) (by omega)]
    rw [List.drop_eq_getElem_cons hi, List.drop_eq_getElem_cons hic, List.zip_cons_cons,
      List.map_cons, List.flatten_cons, ← List.append_assoc]

/-- Total of the clamped strip lengths never exceeds the declared total,
and equals it exactly when every strip range lies inside the buffer. -/
theorem sum_clamped_le (L : Nat) (zs : List (Nat × Nat)) :
    (zs.map fun pc => min pc.2 (L - pc.1)).sum ≤ (zs.map Prod.snd).sum := by
  induction zs with
  | nil => simp
  | cons z zt ih =>
    simp only [List.map_cons, List.sum_cons]
    have : min z.2 (L - z.1) ≤ z.2 := Nat.min_le_left _ _
    omega

theorem sum_clamped_eq (L : Nat) (zs : List (Nat × Nat))
    (h : ∀ pc ∈ zs, pc.1 + pc.2 ≤ L) :
    (zs.map fun pc => min pc.2 (L - pc.1)).sum = (zs.map Prod.snd).sum := by
  induction zs with
  | nil => simp
  | cons z zt ih =>
    simp only [List.map_cons, List.sum_cons]
    have hz := h z (by simp)
    have : min z.2 (L - z.1) = z.2 := by omega
    rw [this, ih (fun pc hpc => h pc (by simp [hpc]))]

theorem sum_clamped_lt (L : Nat) (zs : List (Nat × Nat))
    (h : ∃ pc ∈ zs, L < pc.1 + pc.2 ∧ 0 < pc.2) :
    (zs.map fun pc => min pc.2 (L - pc.1)).sum < (zs.map Prod.snd).sum := by
  induction zs with
  | nil => simp at h
  | cons z zt ih =>
    simp only [List.map_cons, List.sum_cons]
    rcases h with ⟨pc, hpc, hover, hpos⟩
    rcases List.mem_cons.mp hpc with rfl | hmem
    · have h1 : min pc.2 (L - pc.1) < pc.2 := by omega
      have h2 := sum_clamped_le L zt
      omega
    · have h1 : min z.2 (L - z.1) ≤ z.2 := Nat.min_le_left _ _
      have h2 := ih ⟨pc, hmem, hover, hpos⟩
      omega

/-- Length of the assembled strip concatenation: the sum of the clamped
per-strip lengths. -/
theorem flatten_sectionReadAll_length (buf : List Nat) (zs : List (Nat × Nat)) :
    ((zs.map fun pc => sectionReadAll buf pc.1 pc.2).flatten).length
      = (zs.map fun pc => min pc.2 (buf.length - pc.1)).sum := by
  rw [List.length_flatten, List.map_map]
  refine congrArg List.sum (List.map_congr_left ?_)
  intro pc _
  simp [Function.comp, sectionReadAll_length]

/-- Closed form of `processRaw` when the two parallel arrays decode to
`offs`/`cnts` and hold exactly `blockCount` entries each: the strict
index-order concatenation of the (clamped) strip byte ranges. -/
theorem processRaw_closed_form (f : File) (offs cnts : List Nat)
    (hOffRaw : (f.getOr StripOffsetsId).Raw
      = (offs.map (putU32 (f.getOr StripOffsetsId).order)).flatten)
    (hCntRaw : (f.getOr StripByteCountsId).Raw
      = (cnts.map (putU32 (f.getOr StripByteCountsId).order)).flatten)
    (hbo : ∀ v ∈ offs, v < 4294967296) (hbc : ∀ v ∈ cnts, v < 4294967296)
    (hlen : cnts.length = offs.length)
    (hblocks : offs.length
      = blockCountOf (f.getOr ImageLengthId).Offset (f.getOr RowsPerStripId).Offset) :
    f.processRaw = .ok (((offs.zip cnts).map
      (fun pc => sectionReadAll f.buf pc.1 pc.2)).flatten) := by
  simp only [File.processRaw]
  rw [hOffRaw, hCntRaw]
  have := stripLoop_spec f.buf (f.getOr StripOffsetsId).order
    (f.getOr StripByteCountsId).order offs cnts hbo hbc hlen
    (blockCountOf (f.getOr ImageLengthId).Offset (f.getOr RowsPerStripId).Offset)
    0 [] (by omega)
  simpa using this

/-! ### The directory invariant enforced by `readTags` -/

theorem readTagPayload_Id (buf : List Nat) (t t' : Tag)
    (h : readTagPayload buf t = .ok t') : t'.Id = t.Id := by
  unfold readTagPayload at h
  by_cases hz : 4 < t.Size
  · rw [if_pos hz] at h
    cases hrb : readBytes buf t.Offset t.Size with
    | none => rw [hrb] at h; exact absurd h (by simp)
    | some bs =>
      rw [hrb] at h
      cases h
      rfl
  · rw [if_neg hz] at h
    cases h
    rfl

theorem readTagsLoop_sorted (buf : List Nat) (o : ByteOrder) (delta fam : Nat) :
    ∀ (n p : Nat) (acc out : List Tag),
      List.Chain' (flip idLt) acc →
      readTagsLoop buf o delta fam n p acc = .ok out →
      List.Chain' idLt out := by
  intro n
  induction n with
  | zero =>
    intro p acc out hacc h
    unfold readTagsLoop at h
    cases h
    exact List.chain'_reverse.mpr hacc
  | succ n ih =>
    intro p acc out hacc h
    unfold readTagsLoop at h
    cases hdesc : readEntryDesc buf o p with
    | none => rw [hdesc] at h; exact absurd h (by simp)
    | some g =>
      rw [hdesc] at h
      cases hacc' : acc with
      | nil =>
        subst hacc'
        dsimp only at h
        by_cases hc : g.gCount = 4294967295
        · rw [if_pos hc] at h; exact absurd h (by simp)
        · rw [if_neg hc] at h
          cases hpay : readTagPayload buf (mkTag g delta fam o) with
          | error e => rw [hpay] at h; exact absurd h (by simp)
          | ok t =>
            rw [hpay] at h
            exact ih (p+12) [t] out (List.chain'_singleton t) h
      | cons last rest =>
        subst hacc'
        dsimp only at h
        by_cases hid : g.gId ≤ last.Id
        · rw [if_pos hid] at h; exact absurd h (by simp)
        · rw [if_neg hid] at h
          by_cases hc : g.gCount = 4294967295
          · rw [if_pos hc] at h; exact absurd h (by simp)
          · rw [if_neg hc] at h
            cases hpay : readTagPayload buf (mkTag g delta fam o) with
            | error e => rw [hpay] at h; exact absurd h (by simp)
            | ok t =>
              rw [hpay] at h
              refine ih (p+12) (t :: last :: rest) out ?_ h
              refine List.chain'_cons.mpr ⟨?_, hacc⟩
              have hTid : t.Id = g.gId := by
                rw [readTagPayload_Id buf _ t hpay]; rfl
              simp only [flip, idLt, hTid]
              omega

/-- Every successfully decoded directory has strictly increasing tag ids. -/
theorem readTags_sorted (buf : List Nat) (o : ByteOrder) (pos delta fam : Nat)
    (out : List Tag) (h : readTags buf o pos delta fam = .ok out) :
    List.Chain' idLt out := by
  unfold readTags at h
  cases hn : u16At buf o pos with
  | none => rw [hn] at h; exact absurd h (by simp)
  | some n =>
    rw [hn] at h
    exact readTagsLoop_sorted buf o delta fam n (pos+2) [] out List.chain'_nil h

/-- `searchTags` behaviour on a strictly sorted vector: hit returns the tag
with the requested id, miss fails `ErrExist`. -/
theorem searchTags_spec (tags : List Tag) (id : Nat)
    (hs : List.Chain' idLt tags) :
    ((∃ t ∈ tags, t.Id = id) →
      ∃ t, searchTags tags id = .ok t ∧ t ∈ tags ∧ t.Id = id) ∧
    ((∀ t ∈ tags, t.Id ≠ id) → searchTags tags id = .error .notFound) := by
  rcases sortSearch_id_spec tags id hs with ⟨hlt, hid, hmem⟩ | ⟨hcond, hnone⟩
  · constructor
    · intro _
      refine ⟨tagIdx tags (sortSearch tags.length
        (fun i => decide (id ≤ (tagIdx tags i).Id))), ?_, hmem, hid⟩
      simp only [searchTags]
      rw [if_neg]
      push_neg
      exact ⟨by omega, hid⟩
    · intro hnone
      exact absurd hid (hnone _ hmem)
  · constructor
    · intro ⟨t, ht, hid⟩
      exact absurd hid (hnone t ht)
    · intro _
      simp only [searchTags]
      rw [if_pos]
      rcases hcond with h | h
      · exact Or.inl h
      · exact Or.inr h

/-- `File.get` behaviour on a strictly sorted TIFF vector. -/
theorem File_get_spec (f : File) (id : Nat)
    (hs : List.Chain' idLt f.tiff) :
    (∃ t, f.get id = .ok t ∧ t ∈ f.tiff ∧ t.Id = id ∧ (∃ u ∈ f.tiff, u.Id = id)) ∨
    (f.get id = .error .notFound ∧ ∀ t ∈ f.tiff, t.Id ≠ id) := by
  by_cases hex : ∃ t ∈ f.tiff, t.Id = id
  · left
    obtain ⟨t, hok, hmem, hid⟩ := (searchTags_spec f.tiff id hs).1 hex
    exact ⟨t, hok, hmem, hid, hex⟩
  · right
    push_neg at hex
    exact ⟨(searchTags_spec f.tiff id hs).2 hex, hex⟩

/-- `File.Has` decides membership of an id on a strictly sorted vector. -/
theorem File_Has_iff (f : File) (id : Nat)
    (hs : List.Chain' idLt f.tiff) :
    f.Has id = true ↔ ∃ t ∈ f.tiff, t.Id = id := by
  rcases sortSearch_id_spec f.tiff id hs with ⟨hlt, hid, hmem⟩ | ⟨hcond, hnone⟩
  · simp only [File.Has]
    constructor
    · intro _; exact ⟨_, hmem, hid⟩
    · intro _
      simp only [decide_eq_true_eq]
      exact ⟨hlt, hid⟩
  · simp only [File.Has]
    constructor
    · intro h
      simp only [decide_eq_true_eq] at h
      rcases hcond with hc | hc
      · omega
      · exact absurd h.2 hc
    · intro ⟨t, ht, hid⟩
      exact absurd hid (hnone t ht)

/-! ### The payload rule of `readTags` -/

theorem readTagPayload_spec (buf : List Nat) (t t' : Tag)
    (h : readTagPayload buf t = .ok t') :
    t'.Id = t.Id ∧ t'.Typ = t.Typ ∧ t'.Count = t.Count ∧ t'.Offset = t.Offset ∧
    t'.order = t.order ∧ t'.family = t.family ∧
    (t.Size ≤ 4 → t'.Raw = putU32 t.order t.Offset) ∧
    (4 < t.Size → readBytes buf t.Offset t.Size = some t'.Raw) := by
  unfold readTagPayload at h
  by_cases hz : 4 < t.Size
  · rw [if_pos hz] at h
    cases hrb : readBytes buf t.Offset t.Size with
    | none => rw [hrb] at h; exact absurd h (by simp)
    | some bs =>
      rw [hrb] at h
      cases h
      refine ⟨rfl, rfl, rfl, rfl, rfl, rfl, ?_, fun _ => rfl⟩
      intro hle
      omega
  · rw [if_neg hz] at h
    cases h
    exact ⟨rfl, rfl, rfl, rfl, rfl, rfl, fun _ => rfl, fun hgt => absurd hgt hz⟩

theorem readTagPayload_payloadProp (buf : List Nat) (o : ByteOrder)
    (t t' : Tag) (hord : t.order = o)
    (h : readTagPayload buf t = .ok t') : payloadProp buf o t' := by
  obtain ⟨hId, hTyp, hCount, hOff, hOrd, hFam, hinline, hext⟩ :=
    readTagPayload_spec buf t t' h
  have hsize : t'.Size = t.Size := by
    simp [Tag.Size, hTyp, hCount]
  constructor
  · intro hle
    rw [hsize] at hle
    rw [hinline hle, hord, hOff]
  · intro hgt
    rw [hsize] at hgt
    rw [hOff, hsize]
    exact hext hgt

theorem readTagsLoop_payload (buf : List Nat) (o : ByteOrder) (delta fam : Nat) :
    ∀ (n p : Nat) (acc out : List Tag),
      (∀ t ∈ acc, payloadProp buf o t) →
      readTagsLoop buf o delta fam n p acc = .ok out →
      ∀ t ∈ out, payloadProp buf o t := by
  intro n
  induction n with
  | zero =>
    intro p acc out hacc h
    unfold readTagsLoop at h
    cases h
    intro t ht
    exact hacc t (List.mem_reverse.mp ht)
  | succ n ih =>
    intro p acc out hacc h
    unfold readTagsLoop at h
    cases hdesc : readEntryDesc buf o p with
    | none => rw [hdesc] at h; exact absurd h (by simp)
    | some g =>
      rw [hdesc] at h
      cases hacc' : acc with
      | nil =>
        subst hacc'
        dsimp only at h
        by_cases hc : g.gCount = 4294967295
        · rw [if_pos hc] at h; exact absurd h (by simp)
        · rw [if_neg hc] at h
          cases hpay : readTagPayload buf (mkTag g delta fam o) with
          | error e => rw [hpay] at h; exact absurd h (by simp)
          | ok t =>
            rw [hpay] at h
            refine ih (p+12) [t] out ?_ h
            intro u hu
            rcases List.mem_singleton.mp hu with rfl
            exact readTagPayload_payloadProp buf o _ u rfl hpay
      | cons last rest =>
        subst hacc'
        dsimp only at h
        by_cases hid : g.gId ≤ last.Id
        · rw [if_pos hid] at h; exact absurd h (by simp)
        · rw [if_neg hid] at h
          by_cases hc : g.gCount = 4294967295
          · rw [if_pos hc] at h; exact absurd h (by simp)
          · rw [if_neg hc] at h
            cases hpay : readTagPayload buf (mkTag g delta fam o) with
            | error e => rw [hpay] at h; exact absurd h (by simp)
            | ok t =>
              rw [hpay] at h
              refine ih (p+12) (t :: last :: rest) out ?_ h
              intro u hu
              rcases List.mem_cons.mp hu with rfl | hu'
              · exact readTagPayload_payloadProp buf o _ u rfl hpay
              · exact hacc u hu'

theorem readTags_payload (buf : List Nat) (o : ByteOrder) (pos delta fam : Nat)
    (out : List Tag) (h : readTags buf o pos delta fam = .ok out) :
    ∀ t ∈ out, payloadProp buf o t := by
  unfold readTags at h
  cases hn : u16At buf o pos with
  | none => rw [hn] at h; exact absurd h (by simp)
  | some n =>
    rw [hn] at h
    exact readTagsLoop_payload buf o delta fam n (pos+2) [] out (by simp) h

/-! ### Per-format decode lemmas over encoded payloads -/

theorem range_map_eq {α β : Type} (vs : List α) (f : Nat → β) (g : α → β)
    (h : ∀ (i : Nat) (hi : i < vs.length), f i = g (vs.get ⟨i, hi⟩)) :
    (List.range vs.length).map f = vs.map g := by
  apply List.ext_getElem
  · simp
  · intro i h1 h2
    simp only [List.getElem_map, List.getElem_range]
    have := h i (by simpa using h2)
    simpa [List.get_eq_getElem] using this

theorem getD_flatten_fixed {α : Type} (w : Nat) (enc : α → List Nat)
    (hlen : ∀ v, (enc v).length = w) (vs : List α) (tail : List Nat)
    (i j : Nat) (hi : i < vs.length) (hj : j < w) :
    ((vs.map enc).flatten ++ tail).getD (w * i + j) 0 = (enc vs[i]).getD j 0 := by
  rw [List.getD_eq_getElem?_getD, List.getD_eq_getElem?_getD,
    flatten_fixed_getElem w enc hlen vs tail i j hi hj]

theorem u16InRaw_enc (t : Tag) (vs tail : List Nat)
    (hb : ∀ v ∈ vs, v < 65536)
    (hraw : t.Raw = (vs.map (putU16 t.order)).flatten ++ tail)
    (i : Nat) (hi : i < vs.length) :
    u16InRaw t (2*i) = vs[i] := by
  unfold u16InRaw
  rw [hraw]
  have h0 := getD_flatten_fixed 2 (putU16 t.order) (length_putU16 _) vs tail i 0 hi
    (by omega)
  have h1 := getD_flatten_fixed 2 (putU16 t.order) (length_putU16 _) vs tail i 1 hi
    (by omega)
  rw [Nat.add_zero] at h0
  rw [h0, h1, u16_putU16]
  exact Nat.mod_eq_of_lt (hb _ (List.getElem_mem hi))

theorem u32InRaw_enc (t : Tag) (vs tail : List Nat)
    (hb : ∀ v ∈ vs, v < 4294967296)
    (hraw : t.Raw = (vs.map (putU32 t.order)).flatten ++ tail)
    (i : Nat) (hi : i < vs.length) :
    u32InRaw t (4*i) = vs[i] := by
  unfold u32InRaw
  rw [hraw]
  have h0 := getD_flatten_fixed 4 (putU32 t.order) (length_putU32 _) vs tail i 0 hi
    (by omega)
  have h1 := getD_flatten_fixed 4 (putU32 t.order) (length_putU32 _) vs tail i 1 hi
    (by omega)
  have h2 := getD_flatten_fixed 4 (putU32 t.order) (length_putU32 _) vs tail i 2 hi
    (by omega)
  have h3 := getD_flatten_fixed 4 (putU32 t.order) (length_putU32 _) vs tail i 3 hi
    (by omega)
  rw [Nat.add_zero] at h0
  rw [h0, h1, h2, h3, u32_putU32]
  exact Nat.mod_eq_of_lt (hb _ (List.getElem_mem hi))

theorem u32InRaw_pair (t : Tag) (vs : List (Nat × Nat)) (tail : List Nat)
    (hb : ∀ v ∈ vs, v.1 < 4294967296 ∧ v.2 < 4294967296)
    (hraw : t.Raw
      = (vs.map (fun v => putU32 t.order v.1 ++ putU32 t.order v.2)).flatten ++ tail)
    (i : Nat) (hi : i < vs.length) :
    u32InRaw t (8*i) = vs[i].1 ∧ u32InRaw t (8*i+4) = vs[i].2 := by
  have henc : ∀ v : Nat × Nat,
      ((fun v : Nat × Nat => putU32 t.order v.1 ++ putU32 t.order v.2) v).length = 8 :=
    fun v => by simp [length_putU32]
  have hfst : ∀ j, j < 4 →
      ((fun v : Nat × Nat => putU32 t.order v.1 ++ putU32 t.order v.2) vs[i]).getD j 0
        = (putU32 t.order vs[i].1).getD j 0 := by
    intro j hj
    exact List.getD_append _ _ _ _ (by rw [length_putU32]; exact hj)
  have hsnd : ∀ j, j < 4 →
      ((fun v : Nat × Nat => putU32 t.order v.1 ++ putU32 t.order v.2) vs[i]).getD (4+j) 0
        = (putU32 t.order vs[i].2).getD j 0 := by
    intro j hj
    have := List.getD_append_right (putU32 t.order vs[i].1) (putU32 t.order vs[i].2)
      0 (4+j) (by rw [length_putU32]; omega)
    rw [length_putU32] at this
    simpa using this
  constructor
  · unfold u32InRaw
    rw [hraw]
    have h0 := getD_flatten_fixed 8 _ henc vs tail i 0 hi (by omega)
    have h1 := getD_flatten_fixed 8 _ henc vs tail i 1 hi (by omega)
    have h2 := getD_flatten_fixed 8 _ henc vs tail i 2 hi (by omega)
    have h3 := getD_flatten_fixed 8 _ henc vs tail i 3 hi (by omega)
    rw [Nat.add_zero] at h0
    rw [h0, h1, h2, h3, hfst 0 (by omega), hfst 1 (by omega), hfst 2 (by omega),
      hfst 3 (by omega), u32_putU32]
    exact Nat.mod_eq_of_lt (hb _ (List.getElem_mem hi)).1
  · unfold u32InRaw
    rw [hraw]
    have h4 := getD_flatten_fixed 8 _ henc vs tail i 4 hi (by omega)
    have h5 := getD_flatten_fixed 8 _ henc vs tail i 5 hi (by omega)
    have h6 := getD_flatten_fixed 8 _ henc vs tail i 6 hi (by omega)
    have h7 := getD_flatten_fixed 8 _ henc vs tail i 7 hi (by omega)
    have e5 : 8*i+4+1 = 8*i+5 := by omega
    have e6 : 8*i+4+2 = 8*i+6 := by omega
    have e7 : 8*i+4+3 = 8*i+7 := by omega
    rw [e5, e6, e7, h4, h5, h6, h7]
    have f4 := hsnd 0 (by omega)
    have f5 := hsnd 1 (by omega)
    have f6 := hsnd 2 (by omega)
    have f7 := hsnd 3 (by omega)
    rw [Nat.add_zero] at f4
    rw [f4, f5, f6, f7, u32_putU32]
    exact Nat.mod_eq_of_lt (hb _ (List.getElem_mem hi)).2

theorem u64InRaw_enc (t : Tag) (vs tail : List Nat)
    (hb : ∀ v ∈ vs, v < 18446744073709551616)
    (hraw : t.Raw = (vs.map (putU64 t.order)).flatten ++ tail)
    (i : Nat) (hi : i < vs.length) :
    u64InRaw t (8*i) = vs[i] := by
  cases ho : t.order with
  | le =>
    have hmap : vs.map (putU64 t.order)
        = (vs.map (fun v => (v % 4294967296, v / 4294967296 % 4294967296))).map
            (fun pr : Nat × Nat => putU32 t.order pr.1 ++ putU32 t.order pr.2) := by
      rw [List.map_map]
      apply List.map_congr_left
      intro v _
      simp [Function.comp, putU64, ho]
    rw [hmap] at hraw
    have hpair := u32InRaw_pair t
      (vs.map (fun v => (v % 4294967296, v / 4294967296 % 4294967296))) tail
      (by
        intro pr hpr
        rcases List.mem_map.mp hpr with ⟨v, hv, rfl⟩
        exact ⟨Nat.mod_lt _ (by omega), Nat.mod_lt _ (by omega)⟩)
      hraw i (by simpa using hi)
    simp only [u64InRaw, ho]
    rw [hpair.1, hpair.2]
    simp only [List.getElem_map]
    have := hb _ (List.getElem_mem hi)
    omega
  | be =>
    have hmap : vs.map (putU64 t.order)
        = (vs.map (fun v => (v / 4294967296 % 4294967296, v % 4294967296))).map
            (fun pr : Nat × Nat => putU32 t.order pr.1 ++ putU32 t.order pr.2) := by
      rw [List.map_map]
      apply List.map_congr_left
      intro v _
      simp [Function.comp, putU64, ho]
    rw [hmap] at hraw
    have hpair := u32InRaw_pair t
      (vs.map (fun v => (v / 4294967296 % 4294967296, v % 4294967296))) tail
      (by
        intro pr hpr
        rcases List.mem_map.mp hpr with ⟨v, hv, rfl⟩
        exact ⟨Nat.mod_lt _ (by omega), Nat.mod_lt _ (by omega)⟩)
      hraw i (by simpa using hi)
    simp only [u64InRaw, ho]
    rw [hpair.1, hpair.2]
    simp only [List.getElem_map]
    have := hb _ (List.getElem_mem hi)
    omega

theorem decodeByte_spec (t : Tag) (bs tail : List Nat)
    (hraw : t.Raw = bs ++ tail) (hcnt : t.Count = bs.length) :
    decodeByte t = bs.map toString := by
  unfold decodeByte
  rw [hcnt]
  apply range_map_eq
  intro i hi
  rw [List.get_eq_getElem, hraw, List.getD_append _ _ _ _ hi]
  congr 1
  exact List.getD_eq_getElem _ _ hi

theorem decodeShort_spec (t : Tag) (vs tail : List Nat)
    (hb : ∀ v ∈ vs, v < 65536)
    (hraw : t.Raw = (vs.map (putU16 t.order)).flatten ++ tail)
    (hcnt : t.Count = vs.length) :
    decodeShort t = vs.map toString := by
  unfold decodeShort
  rw [hcnt]
  apply range_map_eq
  intro i hi
  rw [List.get_eq_getElem]
  congr 1
  exact u16InRaw_enc t vs tail hb hraw i hi

theorem decodeSignedShort_spec (t : Tag) (vs tail : List Nat)
    (hb : ∀ v ∈ vs, v < 65536)
    (hraw : t.Raw = (vs.map (putU16 t.order)).flatten ++ tail)
    (hcnt : t.Count = vs.length) :
    decodeSignedShort t = vs.map (fun v => toString (toSigned 65536 v)) := by
  unfold decodeSignedShort
  rw [hcnt]
  apply range_map_eq
  intro i hi
  rw [List.get_eq_getElem]
  congr 2
  exact u16InRaw_enc t vs tail hb hraw i hi

theorem decodeLong_spec (t : Tag) (vs tail : List Nat)
    (hb : ∀ v ∈ vs, v < 4294967296)
    (hraw : t.Raw = (vs.map (putU32 t.order)).flatten ++ tail)
    (hcnt : t.Count = vs.length) :
    decodeLong t = vs.map toString := by
  unfold decodeLong
  rw [hcnt]
  apply range_map_eq
  intro i hi
  rw [List.get_eq_getElem]
  congr 1
  exact u32InRaw_enc t vs tail hb hraw i hi

theorem decodeSignedLong_spec (t : Tag) (vs tail : List Nat)
    (hb : ∀ v ∈ vs, v < 4294967296)
    (hraw : t.Raw = (vs.map (putU32 t.order)).flatten ++ tail)
    (hcnt : t.Count = vs.length) :
    decodeSignedLong t = vs.map (fun v => toString (toSigned 4294967296 v)) := by
  unfold decodeSignedLong
  rw [hcnt]
  apply range_map_eq
  intro i hi
  rw [List.get_eq_getElem]
  congr 2
  exact u32InRaw_enc t vs tail hb hraw i hi

theorem decodeFloat_spec (t : Tag) (vs tail : List Nat)
    (hb : ∀ v ∈ vs, v < 4294967296)
    (hraw : t.Raw = (vs.map (putU32 t.order)).flatten ++ tail)
    (hcnt : t.Count = vs.length) :
    decodeFloat t = vs.map floatRepr32 := by
  unfold decodeFloat
  rw [hcnt]
  apply range_map_eq
  intro i hi
  rw [List.get_eq_getElem]
  congr 1
  exact u32InRaw_enc t vs tail hb hraw i hi

theorem decodeDouble_spec (t : Tag) (vs tail : List Nat)
    (hb : ∀ v ∈ vs, v < 18446744073709551616)
    (hraw : t.Raw = (vs.map (putU64 t.order)).flatten ++ tail)
    (hcnt : t.Count = vs.length) :
    decodeDouble t = vs.map floatRepr64 := by
  unfold decodeDouble
  rw [hcnt]
  apply range_map_eq
  intro i hi
  rw [List.get_eq_getElem]
  congr 1
  exact u64InRaw_enc t vs tail hb hraw i hi

theorem decodeRational_spec (t : Tag) (vs : List (Nat × Nat)) (tail : List Nat)
    (hb : ∀ v ∈ vs, v.1 < 4294967296 ∧ v.2 < 4294967296)
    (hraw : t.Raw
      = (vs.map (fun v => putU32 t.order v.1 ++ putU32 t.order v.2)).flatten ++ tail)
    (hcnt : t.Count = vs.length) :
    decodeRational t = vs.map (fun v => toString v.1 ++ "/" ++ toString v.2) := by
  unfold decodeRational
  rw [hcnt]
  apply range_map_eq
  intro i hi
  rw [List.get_eq_getElem]
  have h := u32InRaw_pair t vs tail hb hraw i hi
  rw [h.1, h.2]

theorem decodeSignedRational_spec (t : Tag) (vs : List (Nat × Nat)) (tail : List Nat)
    (hb : ∀ v ∈ vs, v.1 < 4294967296 ∧ v.2 < 4294967296)
    (hraw : t.Raw
      = (vs.map (fun v => putU32 t.order v.1 ++ putU32 t.order v.2)).flatten ++ tail)
    (hcnt : t.Count = vs.length) :
    decodeSignedRational t = vs.map (fun v =>
      toString (toSigned 4294967296 v.1) ++ "/" ++ toString (toSigned 4294967296 v.2)) := by
  unfold decodeSignedRational
  rw [hcnt]
  apply range_map_eq
  intro i hi
  rw [List.get_eq_getElem]
  have h := u32InRaw_pair t vs tail hb hraw i hi
  rw [h.1, h.2]

theorem trimRightNul_append_replicate (bs : List Nat) (k : Nat) :
    trimRightNul (bs ++ List.replicate k 0) = trimRightNul bs := by
  unfold trimRightNul
  rw [List.reverse_append, List.reverse_replicate]
  congr 1
  induction k with
  | zero => simp
  | succ k ih => simp [List.replicate_succ, List.dropWhile_cons, ih]

/-! ### Fields of the expected decoded tag -/

theorem encTag_Id (o : ByteOrder) (fam id : Nat) (p : Payload) (ext : Nat) :
    (encTag o fam id p ext).Id = id := by
  unfold encTag; split <;> rfl

theorem encTag_Typ (o : ByteOrder) (fam id : Nat) (p : Payload) (ext : Nat) :
    (encTag o fam id p ext).Typ = p.format := by
  unfold encTag; split <;> rfl

theorem encTag_Count (o : ByteOrder) (fam id : Nat) (p : Payload) (ext : Nat) :
    (encTag o fam id p ext).Count = p.count := by
  unfold encTag; split <;> rfl

theorem encTag_order (o : ByteOrder) (fam id : Nat) (p : Payload) (ext : Nat) :
    (encTag o fam id p ext).order = o := by
  unfold encTag; split <;> rfl

theorem encTag_Raw (o : ByteOrder) (fam id : Nat) (p : Payload) (ext : Nat) :
    ∃ k, (encTag o fam id p ext).Raw = p.encode o ++ List.replicate k 0 := by
  unfold encTag
  split
  · exact ⟨4 - p.size, rfl⟩
  · exact ⟨0, by simp⟩

/-! ### Type dispatch of `Tag.Values` for each recognized format code -/

theorem Values_typ1 (t : Tag) (hby : ¬(t.Id = XmpId ∨ t.Id = CommentId))
    (ht : t.Typ = 1) : t.Values = .ok (decodeByte t) := by
  simp only [Tag.Values, ht, if_neg hby]
  rfl

theorem Values_typ2 (t : Tag) (hby : ¬(t.Id = XmpId ∨ t.Id = CommentId))
    (ht : t.Typ = 2) : t.Values = .ok [bytesToStr (trimSpaceB (trimRightNul t.Raw))] := by
  simp only [Tag.Values, ht, if_neg hby]
  rfl

theorem Values_typ3 (t : Tag) (hby : ¬(t.Id = XmpId ∨ t.Id = CommentId))
    (ht : t.Typ = 3) : t.Values = .ok (decodeShort t) := by
  simp only [Tag.Values, ht, if_neg hby]
  rfl

theorem Values_typ4 (t : Tag) (hby : ¬(t.Id = XmpId ∨ t.Id = CommentId))
    (ht : t.Typ = 4) : t.Values = .ok (decodeLong t) := by
  simp only [Tag.Values, ht, if_neg hby]
  rfl

theorem Values_typ5 (t : Tag) (hby : ¬(t.Id = XmpId ∨ t.Id = CommentId))
    (ht : t.Typ = 5) : t.Values = .ok (decodeRational t) := by
  simp only [Tag.Values, ht, if_neg hby]
  rfl

theorem Values_typ6 (t : Tag) (hby : ¬(t.Id = XmpId ∨ t.Id = CommentId))
    (ht : t.Typ = 6) : t.Values = .ok [] := by
  simp only [Tag.Values, ht, if_neg hby]
  rfl

theorem Values_typ7 (t : Tag) (hby : ¬(t.Id = XmpId ∨ t.Id = CommentId))
    (ht : t.Typ = 7) : t.Values = .ok [] := by
  simp only [Tag.Values, ht, if_neg hby]
  rfl

theorem Values_typ8 (t : Tag) (hby : ¬(t.Id = XmpId ∨ t.Id = CommentId))
    (ht : t.Typ = 8) : t.Values = .ok (decodeSignedShort t) := by
  simp only [Tag.Values, ht, if_neg hby]
  rfl

theorem Values_typ9 (t : Tag) (hby : ¬(t.Id = XmpId ∨ t.Id = CommentId))
    (ht : t.Typ = 9) : t.Values = .ok (decodeSignedLong t) := by
  simp only [Tag.Values, ht, if_neg hby]
  rfl

theorem Values_typ10 (t : Tag) (hby : ¬(t.Id = XmpId ∨ t.Id = CommentId))
    (ht : t.Typ = 10) : t.Values = .ok (decodeSignedRational t) := by
  simp only [Tag.Values, ht, if_neg hby]
  rfl

theorem Values_typ11 (t : Tag) (hby : ¬(t.Id = XmpId ∨ t.Id = CommentId))
    (ht : t.Typ = 11) : t.Values = .ok (decodeFloat t) := by
  simp only [Tag.Values, ht, if_neg hby]
  rfl

theorem Values_typ12 (t : Tag) (hby : ¬(t.Id = XmpId ∨ t.Id = CommentId))
    (ht : t.Typ = 12) : t.Values = .ok (decodeDouble t) := by
  simp only [Tag.Values, ht, if_neg hby]
  rfl

/-- The decoded tag of a well-formed non-bypass entry carries the entry's
logical view: same id, same count, and the order-independent value strings. -/
theorem encTag_view (o : ByteOrder) (fam id : Nat) (p : Payload) (ext : Nat)
    (hwf : p.wf) (hid1 : id ≠ XmpId) (hid2 : id ≠ CommentId) :
    tagView (encTag o fam id p ext) = (id, p.count, .ok p.specValues) := by
  obtain ⟨k, hraw⟩ := encTag_Raw o fam id p ext
  have hby : ¬((encTag o fam id p ext).Id = XmpId ∨
      (encTag o fam id p ext).Id = CommentId) := by
    rw [encTag_Id]
    rintro (h | h)
    · exact hid1 h
    · exact hid2 h
  have hv : (encTag o fam id p ext).Values = .ok p.specValues := by
    cases p with
    | bytesP bs =>
      rw [Values_typ1 _ hby (encTag_Typ o fam id (.bytesP bs) ext),
        decodeByte_spec _ bs (List.replicate k 0) hraw
          (encTag_Count o fam id (.bytesP bs) ext)]
      rfl
    | ascii bs =>
      rw [Values_typ2 _ hby (encTag_Typ o fam id (.ascii bs) ext), hraw]
      show Except.ok [bytesToStr (trimSpaceB (trimRightNul (bs ++ List.replicate k 0)))]
        = Except.ok [bytesToStr (trimSpaceB (trimRightNul bs))]
      rw [trimRightNul_append_replicate]
    | shorts vs =>
      rw [Values_typ3 _ hby (encTag_Typ o fam id (.shorts vs) ext),
        decodeShort_spec _ vs (List.replicate k 0) hwf
          (by rw [encTag_order]; exact hraw) (encTag_Count o fam id (.shorts vs) ext)]
      rfl
    | longs vs =>
      rw [Values_typ4 _ hby (encTag_Typ o fam id (.longs vs) ext),
        decodeLong_spec _ vs (List.replicate k 0) hwf
          (by rw [encTag_order]; exact hraw) (encTag_Count o fam id (.longs vs) ext)]
      rfl
    | rationals vs =>
      rw [Values_typ5 _ hby (encTag_Typ o fam id (.rationals vs) ext),
        decodeRational_spec _ vs (List.replicate k 0) hwf
          (by rw [encTag_order]; exact hraw) (encTag_Count o fam id (.rationals vs) ext)]
      rfl
    | sbytes bs =>
      rw [Values_typ6 _ hby (encTag_Typ o fam id (.sbytes bs) ext)]
      rfl
    | undef bs =>
      rw [Values_typ7 _ hby (encTag_Typ o fam id (.undef bs) ext)]
      rfl
    | sshorts vs =>
      rw [Values_typ8 _ hby (encTag_Typ o fam id (.sshorts vs) ext),
        decodeSignedShort_spec _ vs (List.replicate k 0) hwf
          (by rw [encTag_order]; exact hraw) (encTag_Count o fam id (.sshorts vs) ext)]
      rfl
    | slongs vs =>
      rw [Values_typ9 _ hby (encTag_Typ o fam id (.slongs vs) ext),
        decodeSignedLong_spec _ vs (List.replicate k 0) hwf
          (by rw [encTag_order]; exact hraw) (encTag_Count o fam id (.slongs vs) ext)]
      rfl
    | srationals vs =>
      rw [Values_typ10 _ hby (encTag_Typ o fam id (.srationals vs) ext),
        decodeSignedRational_spec _ vs (List.replicate k 0) hwf
          (by rw [encTag_order]; exact hraw) (encTag_Count o fam id (.srationals vs) ext)]
      rfl
    | floats vs =>
      rw [Values_typ11 _ hby (encTag_Typ o fam id (.floats vs) ext),
        decodeFloat_spec _ vs (List.replicate k 0) hwf
          (by rw [encTag_order]; exact hraw) (encTag_Count o fam id (.floats vs) ext)]
      rfl
    | doubles vs =>
      rw [Values_typ12 _ hby (encTag_Typ o fam id (.doubles vs) ext),
        decodeDouble_spec _ vs (List.replicate k 0) hwf
          (by rw [encTag_order]; exact hraw) (encTag_Count o fam id (.doubles vs) ext)]
      rfl
  unfold tagView
  rw [encTag_Id, encTag_Count, hv]

/-! ### Parsing an encoded directory back -/

theorem readEntryDesc_of_drop (B : List Nat) (o : ByteOrder) (p0 : Nat)
    (id fmt cnt v0 v1 v2 v3 : Nat) (rest : List Nat)
    (hdrop : B.drop p0
      = putU16 o id ++ putU16 o fmt ++ putU32 o cnt ++ [v0,v1,v2,v3] ++ rest)
    (hid : id < 65536) (hfmt : fmt < 65536) (hcnt : cnt < 4294967296) :
    readEntryDesc B o p0 = some ⟨id, fmt, cnt, u32 o v0 v1 v2 v3⟩ := by
  have hassoc : putU16 o id ++ putU16 o fmt ++ putU32 o cnt ++ [v0,v1,v2,v3] ++ rest
      = (putU16 o id ++ putU16 o fmt ++ putU32 o cnt ++ [v0,v1,v2,v3]) ++ rest := by
    simp [List.append_assoc]
  have hlen12 : (putU16 o id ++ putU16 o fmt ++ putU32 o cnt ++ [v0,v1,v2,v3]).length
      = 12 := by
    cases o <;> simp [putU16, putU32]
  have hlenB : p0 + 12 ≤ B.length := by
    have hlen := congrArg List.length hdrop
    rw [List.length_drop, hassoc, List.length_append, hlen12] at hlen
    omega
  unfold readEntryDesc readBytes
  rw [if_pos hlenB, hdrop, hassoc, List.take_left' hlen12]
  cases o with
  | le =>
    simp only [putU16, putU32, List.cons_append, List.nil_append]
    show some (RawEntry.mk _ _ _ _) = _
    have e1 : u16 .le (id % 256) (id / 256 % 256) = id := by
      simp only [u16]; omega
    have e2 : u16 .le (fmt % 256) (fmt / 256 % 256) = fmt := by
      simp only [u16]; omega
    have e3 : u32 .le (cnt % 256) (cnt / 256 % 256) (cnt / 65536 % 256)
        (cnt / 16777216 % 256) = cnt := by
      simp only [u32]; omega
    rw [e1, e2, e3]
  | be =>
    simp only [putU16, putU32, List.cons_append, List.nil_append]
    show some (RawEntry.mk _ _ _ _) = _
    have e1 : u16 .be (id / 256 % 256) (id % 256) = id := by
      simp only [u16]; omega
    have e2 : u16 .be (fmt / 256 % 256) (fmt % 256) = fmt := by
      simp only [u16]; omega
    have e3 : u32 .be (cnt / 16777216 % 256) (cnt / 65536 % 256) (cnt / 256 % 256)
        (cnt % 256) = cnt := by
      simp only [u32]; omega
    rw [e1, e2, e3]

theorem list_length_four (l : List Nat) (h : l.length = 4) :
    ∃ a b c d, l = [a, b, c, d] := by
  rcases l with _ | ⟨a, _ | ⟨b, _ | ⟨c, _ | ⟨d, _ | ⟨e, tl⟩⟩⟩⟩⟩
  · simp at h
  · simp at h
  · simp at h
  · simp at h
  · exact ⟨a, b, c, d, rfl⟩
  · simp at h

/-- Decoding an encoded directory, one entry at a time.  `B` is the whole
encoded file; `rest` the entries still to decode, whose descriptors start
at byte `dpos` and whose external payloads start at byte `ext`; `XA` is
whatever follows the descriptor block. -/
theorem readTagsLoop_enc (B : List Nat) (o : ByteOrder) (fam : Nat) (XA : List Nat) :
    ∀ (rest : List (Nat × Payload)) (dpos ext : Nat) (acc : List Tag),
      B.drop dpos = encDescs o rest ext ++ XA →
      B.drop ext = encExt o rest →
      ext + extLen rest < 4294967296 →
      (∀ e ∈ rest, e.1 < 65536 ∧ e.1 ≠ XmpId ∧ e.1 ≠ CommentId ∧
        e.2.wf ∧ e.2.count < 4294967295) →
      List.Chain' (fun a b => a.1 < b.1) rest →
      (∀ lt ∈ acc.head?, ∀ e ∈ rest.head?, lt.Id < e.1) →
      readTagsLoop B o 0 fam rest.length dpos acc
        = .ok (acc.reverse ++ encTags o fam rest ext) := by
  intro rest
  induction rest with
  | nil =>
    intro dpos ext acc _ _ _ _ _ _
    unfold readTagsLoop
    simp [encTags]
  | cons e rest' ih =>
    obtain ⟨id, p⟩ := e
    intro dpos ext acc hdropD hdropX hbound hwfr hchain hhead
    obtain ⟨hid, hx1, hx2, hpwf, hcnt⟩ := hwfr (id, p) (by simp)
    dsimp only at hid hx1 hx2 hpwf hcnt
    have hwfr' : ∀ e ∈ rest', e.1 < 65536 ∧ e.1 ≠ XmpId ∧ e.1 ≠ CommentId ∧
        e.2.wf ∧ e.2.count < 4294967295 := fun e he => hwfr e (by simp [he])
    have hchain' : List.Chain' (fun a b : Nat × Payload => a.1 < b.1) rest' :=
      (List.chain'_cons'.mp hchain).2
    have hnext : ∀ e ∈ rest'.head?, id < e.1 := (List.chain'_cons'.mp hchain).1
    by_cases hps : p.size ≤ 4
    · -- inline payload
      have hps' : fmtSize p.format * p.count ≤ 4 := hps
      obtain ⟨v0, v1, v2, v3, hv4⟩ :=
        list_length_four (inlineBytes o p) (inlineBytes_length o p hps)
      have hblt : ∀ b ∈ [v0, v1, v2, v3], b < 256 := by
        rw [← hv4]; exact inlineBytes_lt o p hpwf
      have hdrop2 : B.drop dpos
          = putU16 o id ++ putU16 o p.format ++ putU32 o p.count ++ [v0,v1,v2,v3] ++
            (encDescs o rest' ext ++ XA) := by
        rw [hdropD]
        show encDesc o id p ext ++
          encDescs o rest' (if p.size ≤ 4 then ext else ext + p.size) ++ XA = _
        rw [if_pos hps]
        unfold encDesc
        rw [if_pos hps,
          show p.encode o ++ List.replicate (4 - p.size) 0 = inlineBytes o p from rfl, hv4]
        simp [List.append_assoc]
      have hdesc := readEntryDesc_of_drop B o dpos id p.format p.count v0 v1 v2 v3 _
        hdrop2 hid (Payload.format_lt p) (by omega)
      have hval_lt : u32 o v0 v1 v2 v3 < 4294967296 :=
        u32_lt o v0 v1 v2 v3 (hblt _ (by simp)) (hblt _ (by simp)) (hblt _ (by simp))
          (hblt _ (by simp))
      have htag : readTagPayload B
          (mkTag ⟨id, p.format, p.count, u32 o v0 v1 v2 v3⟩ 0 fam o)
          = .ok (encTag o fam id p ext) := by
        unfold readTagPayload
        rw [if_neg (show ¬(4 < (mkTag ⟨id, p.format, p.count, u32 o v0 v1 v2 v3⟩
          0 fam o).Size) from by
            simp only [mkTag, Tag.Size]
            omega)]
        unfold encTag
        rw [if_pos hps]
        simp only [mkTag, Nat.add_zero, Nat.mod_eq_of_lt hval_lt]
        rw [putU32_u32 o v0 v1 v2 v3 (hblt _ (by simp)) (hblt _ (by simp))
          (hblt _ (by simp)) (hblt _ (by simp)), hv4]
        simp
      have hstep : readTagsLoop B o 0 fam rest'.length (dpos + 12)
          (encTag o fam id p ext :: acc)
          = .ok ((encTag o fam id p ext :: acc).reverse ++ encTags o fam rest' ext) := by
        apply ih (dpos + 12) ext (encTag o fam id p ext :: acc)
        · rw [← List.drop_drop, hdrop2]
          rw [show putU16 o id ++ putU16 o p.format ++ putU32 o p.count ++ [v0,v1,v2,v3]
              ++ (encDescs o rest' ext ++ XA)
            = (putU16 o id ++ putU16 o p.format ++ putU32 o p.count ++ [v0,v1,v2,v3])
              ++ (encDescs o rest' ext ++ XA) from by simp [List.append_assoc]]
          exact List.drop_left' (by cases o <;> simp [putU16, putU32])
        · rw [hdropX]
          show (if p.size ≤ 4 then [] else p.encode o) ++ encExt o rest' = _
          rw [if_pos hps]
          simp
        · have : extLen ((id, p) :: rest') = 0 + extLen rest' := by
            rw [extLen_cons, if_pos hps]
          omega
        · exact hwfr'
        · exact hchain'
        · intro lt hlt e he
          simp only [List.head?_cons, Option.mem_def, Option.some.injEq] at hlt
          subst hlt
          rw [encTag_Id]
          exact hnext e he
      simp only [List.length_cons]
      unfold readTagsLoop
      rw [hdesc]
      cases acc with
      | nil =>
        dsimp only
        rw [if_neg (show ¬(p.count = 4294967295) from hcnt.ne), htag]
        dsimp only
        rw [hstep]
        simp [encTags, if_pos hps, List.append_assoc]
      | cons last tl =>
        dsimp only
        have hlast : last.Id < id := hhead last (by simp) (id, p) (by simp)
        rw [if_neg (by omega), if_neg (show ¬(p.count = 4294967295) from hcnt.ne), htag]
        dsimp only
        rw [hstep]
        simp [encTags, if_pos hps, List.append_assoc]
    · -- external payload
      have hps' : ¬fmtSize p.format * p.count ≤ 4 := hps
      obtain ⟨v0, v1, v2, v3, hv4⟩ :=
        list_length_four (putU32 o ext) (length_putU32 o ext)
      have hblt : ∀ b ∈ [v0, v1, v2, v3], b < 256 := by
        rw [← hv4]; exact putU32_lt o ext
      have hval : u32 o v0 v1 v2 v3 = ext := by
        have := u32_putU32 o ext
        rw [hv4] at this
        simp only [List.getD_cons_zero, List.getD_cons_succ] at this
        rw [this]
        omega
      have hdrop2 : B.drop dpos
          = putU16 o id ++ putU16 o p.format ++ putU32 o p.count ++ [v0,v1,v2,v3] ++
            (encDescs o rest' (ext + p.size) ++ XA) := by
        rw [hdropD]
        show encDesc o id p ext ++
          encDescs o rest' (if p.size ≤ 4 then ext else ext + p.size) ++ XA = _
        rw [if_neg hps]
        unfold encDesc
        rw [if_neg hps, hv4]
        simp [List.append_assoc]
      have hdesc := readEntryDesc_of_drop B o dpos id p.format p.count v0 v1 v2 v3 _
        hdrop2 hid (Payload.format_lt p) (by omega)
      have hdropXc : B.drop ext = p.encode o ++ encExt o rest' := by
        rw [hdropX]
        show (if p.size ≤ 4 then [] else p.encode o) ++ encExt o rest' = _
        rw [if_neg hps]
      have hextlen : extLen ((id, p) :: rest') = p.size + extLen rest' := by
        rw [extLen_cons, if_neg hps]
      have hrb : readBytes B ext p.size = some (p.encode o) := by
        have hlendrop : B.length - ext = p.size + extLen rest' := by
          have := congrArg List.length hdropXc
          rw [List.length_drop, List.length_append, Payload.encode_length,
            encExt_length] at this
          exact this
        have hsz4 : 4 < p.size := by omega
        unfold readBytes
        rw [if_pos (by omega), hdropXc,
          List.take_left' (Payload.encode_length o p)]
      have htag : readTagPayload B
          (mkTag ⟨id, p.format, p.count, u32 o v0 v1 v2 v3⟩ 0 fam o)
          = .ok (encTag o fam id p ext) := by
        have hoff : (u32 o v0 v1 v2 v3 + 0) % 4294967296 = ext := by
          rw [hval]
          omega
        unfold readTagPayload
        rw [if_pos (show 4 < (mkTag ⟨id, p.format, p.count, u32 o v0 v1 v2 v3⟩
          0 fam o).Size from by
            simp only [mkTag, Tag.Size]
            omega)]
        simp only [mkTag, hoff]
        rw [show Tag.Size (Tag.mk id p.format p.count ext [] fam o) = p.size from rfl,
          hrb]
        unfold encTag
        rw [if_neg hps]
      have hstep : readTagsLoop B o 0 fam rest'.length (dpos + 12)
          (encTag o fam id p ext :: acc)
          = .ok ((encTag o fam id p ext :: acc).reverse
              ++ encTags o fam rest' (ext + p.size)) := by
        apply ih (dpos + 12) (ext + p.size) (encTag o fam id p ext :: acc)
        · rw [← List.drop_drop, hdrop2]
          rw [show putU16 o id ++ putU16 o p.format ++ putU32 o p.count ++ [v0,v1,v2,v3]
              ++ (encDescs o rest' (ext + p.size) ++ XA)
            = (putU16 o id ++ putU16 o p.format ++ putU32 o p.count ++ [v0,v1,v2,v3])
              ++ (encDescs o rest' (ext + p.size) ++ XA) from by simp [List.append_assoc]]
          exact List.drop_left' (by cases o <;> simp [putU16, putU32])
        · rw [← List.drop_drop, hdropXc]
          exact List.drop_left' (Payload.encode_length o p)
        · omega
        · exact hwfr'
        · exact hchain'
        · intro lt hlt e he
          simp only [List.head?_cons, Option.mem_def, Option.some.injEq] at hlt
          subst hlt
          rw [encTag_Id]
          exact hnext e he
      simp only [List.length_cons]
      unfold readTagsLoop
      rw [hdesc]
      cases acc with
      | nil =>
        dsimp only
        rw [if_neg (show ¬(p.count = 4294967295) from hcnt.ne), htag]
        dsimp only
        rw [hstep]
        simp [encTags, if_neg hps, List.append_assoc]
      | cons last tl =>
        dsimp only
        have hlast : last.Id < id := hhead last (by simp) (id, p) (by simp)
        rw [if_neg (by omega), if_neg (show ¬(p.count = 4294967295) from hcnt.ne), htag]
        dsimp only
        rw [hstep]
        simp [encTags, if_neg hps, List.append_assoc]

theorem readOrder_encodeFile (o : ByteOrder) (es : List (Nat × Payload)) :
    readOrder (encodeFile o es) = .ok o := by
  have h4 : 0 + 4 ≤ (encodeFile o es).length := by
    rw [encodeFile_length]
    omega
  have hB : encodeFile o es
      = headerBytes o ++ (putU16 o es.length ++
        (encDescs o es (6 + 12 * es.length) ++ encExt o es)) := by
    simp [encodeFile, List.append_assoc]
  have ht : (encodeFile o es).take 4 = headerBytes o := by
    rw [hB]
    exact List.take_left' (by cases o <;> simp [headerBytes])
  unfold readOrder readBytes
  rw [if_pos h4, List.drop_zero, ht]
  cases o <;> rfl

theorem u16At_header (o : ByteOrder) (es : List (Nat × Payload))
    (hn : es.length < 65536) :
    u16At (encodeFile o es) o 4 = some es.length := by
  have hB : encodeFile o es
      = headerBytes o ++ (putU16 o es.length ++
        (encDescs o es (6 + 12 * es.length) ++ encExt o es)) := by
    simp [encodeFile, List.append_assoc]
  have h4 : (headerBytes o).length = 4 := by cases o <;> simp [headerBytes]
  have hdrop4 : (encodeFile o es).drop 4
      = putU16 o es.length ++ (encDescs o es (6 + 12 * es.length) ++ encExt o es) := by
    rw [hB]
    exact List.drop_left' h4
  have e0 := List.getElem?_drop (encodeFile o es) 4 0
  have e1 := List.getElem?_drop (encodeFile o es) 4 1
  rw [hdrop4] at e0 e1
  have e0' : (encodeFile o es)[4]? = (putU16 o es.length ++
      (encDescs o es (6 + 12 * es.length) ++ encExt o es))[0]? := by
    rw [e0]
  have e1' : (encodeFile o es)[4+1]? = (putU16 o es.length ++
      (encDescs o es (6 + 12 * es.length) ++ encExt o es))[1]? := by
    rw [e1]
  unfold u16At
  rw [e0', e1']
  cases o <;> simp [putU16, u16] <;> omega

/-- `readTags` on an encoded well-formed directory recovers exactly the
expected tags. -/
theorem readTags_encodeFile (o : ByteOrder) (fam : Nat)
    (es : List (Nat × Payload)) (hwf : wfEntries es) :
    readTags (encodeFile o es) o 4 0 fam
      = .ok (encTags o fam es (6 + 12 * es.length)) := by
  obtain ⟨hchain, hlen, hbound, hwfr⟩ := hwf
  have hB : encodeFile o es
      = (headerBytes o ++ putU16 o es.length) ++
        (encDescs o es (6 + 12 * es.length) ++ encExt o es) := by
    simp [encodeFile, List.append_assoc]
  have hB2 : encodeFile o es
      = (headerBytes o ++ putU16 o es.length ++ encDescs o es (6 + 12 * es.length)) ++
        encExt o es := by
    simp [encodeFile, List.append_assoc]
  have hdropD : (encodeFile o es).drop 6
      = encDescs o es (6 + 12 * es.length) ++ encExt o es := by
    rw [hB]
    exact List.drop_left' (by cases o <;> simp [headerBytes, putU16])
  have hdropX : (encodeFile o es).drop (6 + 12 * es.length) = encExt o es := by
    rw [hB2]
    refine List.drop_left' ?_
    rw [List.length_append, List.length_append, encDescs_length]
    cases o <;> simp [headerBytes, length_putU16]
  unfold readTags
  rw [u16At_header o es hlen]
  have hloop := readTagsLoop_enc (encodeFile o es) o fam (encExt o es) es 6
    (6 + 12 * es.length) [] hdropD hdropX (by omega) hwfr hchain (by simp)
  simpa using hloop

/-- The decoded tags of a well-formed encoded directory carry exactly the
content's logical views, independent of the byte order. -/
theorem encTags_map_view (o : ByteOrder) (fam : Nat) :
    ∀ (es : List (Nat × Payload)) (ext : Nat),
      (∀ e ∈ es, e.1 ≠ XmpId ∧ e.1 ≠ CommentId ∧ e.2.wf) →
      (encTags o fam es ext).map tagView = es.map entryView := by
  intro es
  induction es with
  | nil => intro ext _; rfl
  | cons e et ih =>
    obtain ⟨id, p⟩ := e
    intro ext h
    obtain ⟨h1, h2, h3⟩ := h (id, p) (by simp)
    dsimp only at h1 h2 h3
    simp only [encTags, List.map_cons]
    rw [encTag_view o fam id p ext h3 h1 h2, ih _ (fun e he => h e (by simp [he]))]
    rfl

/-! ### Claim theorems -/

/-- C1 (counterexample): with a non-zero rebase (`delta = 10`, as the
MakerNote reader passes), the inline tag of `dirInline` (descriptor value
field 5) is materialized with raw bytes `[15,0,0,0]` — the re-encoding of
`value + rebase` — which are NOT the descriptor's value field 5 re-encoded
in the directory's byte order. -/
theorem claim1_counterexample :
    readTags dirInline .le 0 10 famNote =
      .ok [{ Id := 1, Typ := 3, Count := 1, Offset := 15, Raw := [15,0,0,0],
             family := famNote, order := .le }] ∧
    putU32 .le 5 ≠ [15,0,0,0] := by
  constructor
  · rfl
  · decide

/-- C1 (amended): for every directory entry read by `readTags`, if the
payload size is at most 4 the tag's 4 raw bytes are the byte-order
re-encoding of `value + rebase` (mod 2^32) — which coincides with the
descriptor's inline value field exactly when the rebase is 0 — and if the
size exceeds 4 the raw bytes are read at absolute offset `value + rebase`.
Stated both on the per-entry payload rule (`mkTag`/`readTagPayload`, where
the descriptor's value field `g.gOffset` is explicit) and as an invariant
of every tag in a successfully decoded directory. -/
theorem claim1_payload_rule :
    (∀ (buf : List Nat) (o : ByteOrder) (delta fam : Nat) (g : RawEntry),
      (fmtSize g.gType * g.gCount ≤ 4 →
        readTagPayload buf (mkTag g delta fam o) =
          .ok { mkTag g delta fam o with
                Raw := putU32 o ((g.gOffset + delta) % 4294967296) }) ∧
      (4 < fmtSize g.gType * g.gCount →
        readTagPayload buf (mkTag g delta fam o) =
          match readBytes buf ((g.gOffset + delta) % 4294967296)
              (fmtSize g.gType * g.gCount) with
          | some bs => .ok { mkTag g delta fam o with Raw := bs }
          | none => .error .truncated)) ∧
    (∀ (buf : List Nat) (o : ByteOrder) (pos delta fam : Nat) (out : List Tag),
      readTags buf o pos delta fam = .ok out →
      ∀ t ∈ out, (t.Size ≤ 4 → t.Raw = putU32 o t.Offset) ∧
        (4 < t.Size → readBytes buf t.Offset t.Size = some t.Raw)) := by
  constructor
  · intro buf o delta fam g
    constructor
    · intro hle
      unfold readTagPayload
      rw [if_neg (by simpa [mkTag, Tag.Size] using hle)]
      rfl
    · intro hgt
      unfold readTagPayload
      rw [if_pos (by simpa [mkTag, Tag.Size] using hgt)]
      rfl
  · intro buf o pos delta fam out h t ht
    exact readTags_payload buf o pos delta fam out h t ht

/-- C1 (witness): the amended payload rule evaluated at the concrete
`dirInline` entry (value field 5, rebase 10, inline Short) and at a
concrete external entry (type Long, count 4, size 16). -/
theorem claim1_witness :
    readTagPayload [] (mkTag ⟨1, 3, 1, 5⟩ 10 famNote .le) =
      .ok { mkTag ⟨1, 3, 1, 5⟩ 10 famNote .le with Raw := putU32 .le 15 } ∧
    readTagPayload [0,1,2,3] (mkTag ⟨1, 4, 4, 0⟩ 0 famTiff .le) =
      .error .truncated := by
  constructor
  · exact (claim1_payload_rule.1 [] .le 10 famNote ⟨1, 3, 1, 5⟩).1 (by decide)
  · have := (claim1_payload_rule.1 [0,1,2,3] .le 0 famTiff ⟨1, 4, 4, 0⟩).2 (by decide)
    rw [this]
    rfl

/-- C2: in every successfully decoded directory the tag ids are strictly
increasing in file order; a directory with ids `[5,2,9]` fails with the
`tags not sorted properly` structural error, and a directory whose entry
count field is `0xFFFFFFFF` fails with the `invalid count` structural error
(the two `DirectoryCorrupt` conditions). -/
theorem claim2_ids_strictly_increasing :
    (∀ (buf : List Nat) (o : ByteOrder) (pos delta fam : Nat) (out : List Tag),
      readTags buf o pos delta fam = .ok out → List.Chain' idLt out) ∧
    readTags dirUnsorted .le 0 0 famTiff = .error .notSorted ∧
    readTags dirSentinel .le 0 0 famTiff = .error .invalidCount := by
  refine ⟨?_, by decide, by decide⟩
  intro buf o pos delta fam out h
  exact readTags_sorted buf o pos delta fam out h

/-- The `block` computation of `processRaw` is the rounded-up quotient. -/
theorem blockCountOf_eq_ceil (L S : Nat) (hS : S ≠ 0) :
    blockCountOf L S = (L + S - 1) / S := by
  have h0 : 0 < S := Nat.pos_of_ne_zero hS
  have hdm : S * (L / S) + L % S = L := Nat.div_add_mod L S
  have hmod : L % S < S := Nat.mod_lt _ h0
  by_cases hr : L % S = 0
  · have hL : L + S - 1 = S * (L / S) + (S - 1) := by omega
    have e1 : (L + S - 1) / S = L / S + (S - 1) / S := by
      conv_lhs => rw [hL]
      exact Nat.mul_add_div h0 _ _
    have hz : (S - 1) / S = 0 := Nat.div_eq_of_lt (by omega)
    unfold blockCountOf
    simp only [hr, ne_eq, not_true_eq_false, if_false]
    omega
  · have hmul : S * (L / S + 1) = S * (L / S) + S := by ring
    have hL : L + S - 1 = S * (L / S + 1) + (L % S - 1) := by omega
    have e1 : (L + S - 1) / S = (L / S + 1) + (L % S - 1) / S := by
      conv_lhs => rw [hL]
      exact Nat.mul_add_div h0 _ _
    have hz : (L % S - 1) / S = 0 := Nat.div_eq_of_lt (by omega)
    unfold blockCountOf
    rw [if_pos hr]
    omega

/-- C3: `processRaw` iterates `blockCount = ceil(ImageLength/RowsPerStrip)`
strip descriptors read as two parallel `uint32` arrays, concatenating the
strip byte ranges in strict index order; `blockCountOf 5 2 = 3`; and when
every strip range lies inside the backing buffer the assembled length is
the sum of the byte counts. -/
theorem claim3_processRaw_strips :
    (∀ L S : Nat, S ≠ 0 → blockCountOf L S = (L + S - 1) / S) ∧
    blockCountOf 5 2 = 3 ∧
    (∀ (f : File) (offs cnts : List Nat),
      (f.getOr StripOffsetsId).Raw
          = (offs.map (putU32 (f.getOr StripOffsetsId).order)).flatten →
      (f.getOr StripByteCountsId).Raw
          = (cnts.map (putU32 (f.getOr StripByteCountsId).order)).flatten →
      (∀ v ∈ offs, v < 4294967296) → (∀ v ∈ cnts, v < 4294967296) →
      cnts.length = offs.length →
      offs.length = blockCountOf (f.getOr ImageLengthId).Offset
          (f.getOr RowsPerStripId).Offset →
      f.processRaw = .ok (((offs.zip cnts).map
          (fun pc => sectionReadAll f.buf pc.1 pc.2)).flatten) ∧
      ((∀ pc ∈ offs.zip cnts, pc.1 + pc.2 ≤ f.buf.length) →
        (((offs.zip cnts).map
          (fun pc => sectionReadAll f.buf pc.1 pc.2)).flatten).length = cnts.sum)) := by
  refine ⟨blockCountOf_eq_ceil, by decide, ?_⟩
  intro f offs cnts hOffRaw hCntRaw hbo hbc hlen hblocks
  constructor
  · exact processRaw_closed_form f offs cnts hOffRaw hCntRaw hbo hbc hlen hblocks
  · intro hcomplete
    rw [flatten_sectionReadAll_length, sum_clamped_eq _ _ (fun pc hpc => hcomplete pc hpc)]
    rw [List.map_snd_zip offs cnts (by omega)]

/-- C3 (witness): a synthetic raw file (`RowsPerStrip = 2`, `ImageLength = 5`,
hence 3 strips) whose 3 offset/count pairs tile its 12-byte buffer; the
assembled image is the index-order concatenation and its length 12 is the
sum of the byte counts. -/
theorem claim3_witness :
    cf3.processRaw = .ok [70,71,72,73, 74,75,76,77, 78,79,80,81] ∧
    (12 : Nat) = [4,4,4].sum := by
  have h := claim3_processRaw_strips.2.2 cf3 [0,4,8] [4,4,4]
    (by decide) (by decide) (by decide) (by decide) (by decide) (by decide)
  have h1 := h.1
  have h2 := h.2 (by decide)
  constructor
  · rw [h1]; rfl
  · rw [← h2]; rfl

/-- C4 (counterexample): in `cf4` the single strip (offset 6, byteCount 8)
overruns the 10-byte buffer, yet the byte accessor returns the partially
assembled 4-byte image with no error — it does NOT fail with a Truncated
error.  (Compare the decoded length 4 with the declared byteCount
`(cf4.getOr StripByteCountsId).Uint = 8`.) -/
theorem claim4_counterexample :
    cf4.Bytes = .ok [56,57,58,59] ∧
    cf4.Bytes ≠ .error .truncated ∧
    ([56,57,58,59] : List Nat).length < (cf4.getOr StripByteCountsId).Uint := by
  refine ⟨by rfl, by decide, by decide⟩

/-- C4 (amended): a strip whose offset plus byteCount extends past the end
of the backing buffer is silently clamped — `processRaw` still returns `ok`
with the partially assembled image, whose length falls short of the sum of
the byte counts; Truncated errors arise in strip assembly only from
exhausting the parallel offset/count arrays themselves. -/
theorem claim4_short_reads_clamped
    (f : File) (offs cnts : List Nat)
    (hOffRaw : (f.getOr StripOffsetsId).Raw
        = (offs.map (putU32 (f.getOr StripOffsetsId).order)).flatten)
    (hCntRaw : (f.getOr StripByteCountsId).Raw
        = (cnts.map (putU32 (f.getOr StripByteCountsId).order)).flatten)
    (hbo : ∀ v ∈ offs, v < 4294967296) (hbc : ∀ v ∈ cnts, v < 4294967296)
    (hlen : cnts.length = offs.length)
    (hblocks : offs.length = blockCountOf (f.getOr ImageLengthId).Offset
        (f.getOr RowsPerStripId).Offset)
    (hover : ∃ pc ∈ offs.zip cnts, f.buf.length < pc.1 + pc.2 ∧ 0 < pc.2) :
    f.processRaw = .ok (((offs.zip cnts).map
        (fun pc => sectionReadAll f.buf pc.1 pc.2)).flatten) ∧
    (((offs.zip cnts).map
        (fun pc => sectionReadAll f.buf pc.1 pc.2)).flatten).length < cnts.sum := by
  constructor
  · exact processRaw_closed_form f offs cnts hOffRaw hCntRaw hbo hbc hlen hblocks
  · rw [flatten_sectionReadAll_length]
    have h := sum_clamped_lt f.buf.length (offs.zip cnts) hover
    rw [List.map_snd_zip offs cnts (by omega)] at h
    exact h

/-- C4 (amended, witness): the clamped behaviour evaluated at `cf4`. -/
theorem claim4_witness :
    cf4.processRaw = .ok [56,57,58,59] ∧
    ([56,57,58,59] : List Nat).length < [8].sum := by
  have h := claim4_short_reads_clamped cf4 [6] [8] (by decide) (by decide)
    (by decide) (by decide) (by decide) (by decide) (by decide)
  refine ⟨?_, by decide⟩
  rw [h.1]
  rfl

/-- C5: a file is classified as embedded JPEG iff its TIFF tags contain
both 0x201 and 0x202, and as raw striped iff they contain 0x111, 0x116 and
0x117; with neither set present both public accessors fail with `ErrImage`
(NoImage); with both present the embedded-JPEG path is taken by both. -/
theorem claim5_classification (f : File) (hs : List.Chain' idLt f.tiff) :
    (f.IsJpeg = true ↔ ((∃ t ∈ f.tiff, t.Id = JpegFromRawStartId) ∧
        (∃ t ∈ f.tiff, t.Id = JpegFromRawLengthId))) ∧
    (f.IsRaw = true ↔ ((∃ t ∈ f.tiff, t.Id = StripOffsetsId) ∧
        (∃ t ∈ f.tiff, t.Id = RowsPerStripId) ∧
        (∃ t ∈ f.tiff, t.Id = StripByteCountsId))) ∧
    (f.IsJpeg = false → f.IsRaw = false →
        f.imagePath = .error .noImage ∧ f.Bytes = .error .noImage) ∧
    (f.IsJpeg = true → f.IsRaw = true →
        f.imagePath = .ok .jpeg ∧ f.Bytes = f.processJpeg) := by
  refine ⟨?_, ?_, ?_, ?_⟩
  · rw [← File_Has_iff f JpegFromRawStartId hs, ← File_Has_iff f JpegFromRawLengthId hs]
    simp [File.IsJpeg]
  · rw [← File_Has_iff f StripOffsetsId hs, ← File_Has_iff f RowsPerStripId hs,
      ← File_Has_iff f StripByteCountsId hs]
    simp [File.IsRaw]
  · intro hj hr
    constructor
    · simp [File.imagePath, hj, hr]
    · simp [File.Bytes, hj, hr]
  · intro hj _
    constructor
    · simp [File.imagePath, hj]
    · simp [File.Bytes, hj]

/-- C5 (witness): `cf5` carries both marker sets; both accessors take the
embedded-JPEG path. -/
theorem claim5_witness :
    cf5.imagePath = .ok .jpeg ∧ cf5.Bytes = cf5.processJpeg :=
  (claim5_classification cf5
    (by simp [cf5, List.chain'_cons, idLt])).2.2.2 (by decide) (by decide)

/-- C7: every Rational element decodes to the exact literal string
`numerator/denominator` built from its two 32-bit components — no
reduction, no decimal conversion. -/
theorem claim7_rational_literal (t : Tag) (ht : t.Typ = 5)
    (hid : t.Id ≠ XmpId ∧ t.Id ≠ CommentId) :
    t.Values = .ok ((List.range t.Count).map fun i =>
      toString (u32InRaw t (8*i)) ++ "/" ++ toString (u32InRaw t (8*i+4))) := by
  have hby : ¬(t.Id = XmpId ∨ t.Id = CommentId) := by
    rintro (h | h)
    · exact hid.1 h
    · exact hid.2 h
  simp only [Tag.Values, ht, if_neg hby]
  rfl

/-- C7 (witness): the raw pair `(1,3)` decodes to the literal `"1/3"`. -/
theorem claim7_witness : ratTag1.Values = .ok ["1/3"] := by
  have h := claim7_rational_literal ratTag1 (by decide) (by decide)
  rw [h]
  rfl

/-- C8 (counterexample): an Undefined-format tag whose id is not a bypass
id does NOT fail the generic codec with `ErrFormat` (UnsupportedType) — it
yields an empty value list with no error (the `Undef` switch case in the
source has an empty body; its decode call is commented out). -/
theorem claim8_counterexample :
    undefTag1.Values = .ok [] ∧ undefTag1.Values ≠ .error .badFormat := by
  refine ⟨by rfl, by decide⟩

/-- C8 (amended): for every Undefined-format tag whose id is not a bypass
id, the generic codec returns an empty value list with no error. -/
theorem claim8_undefined_no_error (t : Tag) (ht : t.Typ = 7)
    (hid : t.Id ≠ XmpId ∧ t.Id ≠ CommentId) :
    t.Values = .ok [] := by
  have hby : ¬(t.Id = XmpId ∨ t.Id = CommentId) := by
    rintro (h | h)
    · exact hid.1 h
    · exact hid.2 h
  simp only [Tag.Values, ht, if_neg hby]
  rfl

/-- C8 (amended, witness). -/
theorem claim8_witness : undefTag2.Values = .ok [] :=
  claim8_undefined_no_error undefTag2 (by decide) (by decide)

/-- C9 (counterexample): `GetTag`'s origin switch has no `Gps` case, so a
GPS lookup falls to the `default` branch and fails `ErrExist` even though a
tag with the requested id exists in the file's GPS vector. -/
theorem claim9_counterexample :
    cf9.GetTag 5 famGps = .error .notFound ∧ ∃ t ∈ cf9.gps, t.Id = 5 := by
  refine ⟨by rfl, by decide⟩

/-- C9 (amended): `(id, family)` lookup via binary search returns the tag
iff present for the families TIFF (and its Nef alias), EXIF and MakerNote;
for GPS the lookup always fails `ErrExist`, regardless of the file's GPS
vector (the origin switch has no Gps case). -/
theorem claim9_gettag_families (f : File) (id : Nat) :
    (List.Chain' idLt f.tiff → ∀ origin, origin = famTiff ∨ origin = famNef →
      ((∃ t ∈ f.tiff, t.Id = id) →
        ∃ t, f.GetTag id origin = .ok t ∧ t ∈ f.tiff ∧ t.Id = id) ∧
      ((∀ t ∈ f.tiff, t.Id ≠ id) → f.GetTag id origin = .error .notFound)) ∧
    (List.Chain' idLt f.exif →
      ((∃ t ∈ f.exif, t.Id = id) →
        ∃ t, f.GetTag id famExif = .ok t ∧ t ∈ f.exif ∧ t.Id = id) ∧
      ((∀ t ∈ f.exif, t.Id ≠ id) → f.GetTag id famExif = .error .notFound)) ∧
    (List.Chain' idLt f.notes →
      ((∃ t ∈ f.notes, t.Id = id) →
        ∃ t, f.GetTag id famNote = .ok t ∧ t ∈ f.notes ∧ t.Id = id) ∧
      ((∀ t ∈ f.notes, t.Id ≠ id) → f.GetTag id famNote = .error .notFound)) ∧
    f.GetTag id famGps = .error .notFound := by
  refine ⟨?_, ?_, ?_, ?_⟩
  · intro hs origin horig
    have hsel : f.GetTag id origin = searchTags f.tiff id := by
      rcases horig with rfl | rfl
      · rfl
      · rfl
    rw [hsel]
    exact searchTags_spec f.tiff id hs
  · intro hs
    have hsel : f.GetTag id famExif = searchTags f.exif id := rfl
    rw [hsel]
    exact searchTags_spec f.exif id hs
  · intro hs
    have hsel : f.GetTag id famNote = searchTags f.notes id := rfl
    rw [hsel]
    exact searchTags_spec f.notes id hs
  · rfl

/-- C9 (amended, witness): a MakerNote hit and an EXIF miss at `cf9`. -/
theorem claim9_witness :
    (∃ t, cf9.GetTag 7 famNote = .ok t ∧ t ∈ cf9.notes ∧ t.Id = 7) ∧
    cf9.GetTag 9 famExif = .error .notFound := by
  constructor
  · exact ((claim9_gettag_families cf9 7).2.2.1
      (by simp [cf9, List.chain'_cons, idLt])).1 (by decide)
  · exact ((claim9_gettag_families cf9 9).2.1
      (by simp [cf9, List.chain'_cons, idLt])).2 (by decide)

/-- C10: a file whose TIFF vector has no Photometric tag (0x106) reports
`IsSupported() = true` and `ImageType() = "jpeg"` — even when it also has
neither embedded-JPEG nor raw-strip marker tags, in which case both public
image accessors fail with `ErrImage` (NoImage). -/
theorem claim10_missing_photometric (f : File)
    (hs : List.Chain' idLt f.tiff)
    (hnp : ∀ t ∈ f.tiff, t.Id ≠ PhotometricId) :
    f.IsSupported = true ∧ f.ImageType = "jpeg" ∧
    ((∀ t ∈ f.tiff, t.Id ≠ JpegFromRawStartId) →
     (∀ t ∈ f.tiff, t.Id ≠ StripOffsetsId) →
     f.imagePath = .error .noImage ∧ f.Bytes = .error .noImage) := by
  have hget : f.get PhotometricId = .error .notFound := by
    rcases File_get_spec f PhotometricId hs with ⟨t, _, hmem, hid, _⟩ | ⟨herr, _⟩
    · exact absurd hid (hnp t hmem)
    · exact herr
  refine ⟨?_, ?_, ?_⟩
  · simp [File.IsSupported, hget]
  · simp [File.ImageType, hget]
  · intro hj hr
    have h1 : f.Has JpegFromRawStartId = false := by
      cases hb : f.Has JpegFromRawStartId with
      | false => rfl
      | true =>
        obtain ⟨t, hmem, hid⟩ := (File_Has_iff f JpegFromRawStartId hs).mp hb
        exact absurd hid (hj t hmem)
    have h2 : f.Has StripOffsetsId = false := by
      cases hb : f.Has StripOffsetsId with
      | false => rfl
      | true =>
        obtain ⟨t, hmem, hid⟩ := (File_Has_iff f StripOffsetsId hs).mp hb
        exact absurd hid (hr t hmem)
    have hJf : f.IsJpeg = false := by
      simp [File.IsJpeg, h1]
    have hRf : f.IsRaw = false := by
      simp [File.IsRaw, h2]
    constructor
    · simp [File.imagePath, hJf, hRf]
    · simp [File.Bytes, hJf, hRf]

/-- C10 (witness): the empty-tagged file `cf10`. -/
theorem claim10_witness :
    cf10.IsSupported = true ∧ cf10.ImageType = "jpeg" ∧
    cf10.imagePath = .error .noImage ∧ cf10.Bytes = .error .noImage := by
  have h := claim10_missing_photometric cf10 (by simp [cf10]) (by simp [cf10])
  exact ⟨h.1, h.2.1, (h.2.2 (by simp [cf10]) (by simp [cf10])).1,
    (h.2.2 (by simp [cf10]) (by simp [cf10])).2⟩

/-- C6 (counterexample): the claim fails for content at a bypass id.  The
single tag content `(id 0x2bc, Short, count 1, value 1)` of `es6`, encoded
once little-endian and once big-endian, decodes to different logical value
strings: the id-0x2bc bypass branch of `Tag.Values` returns the raw 4
descriptor bytes as a string, and those bytes depend on the byte order
(`[1,0,0,0]` vs `[0,1,0,0]`). -/
theorem claim6_counterexample :
    (readTags (encodeFile .le es6) .le 4 0 famTiff).map (List.map tagView) ≠
    (readTags (encodeFile .be es6) .be 4 0 famTiff).map (List.map tagView) := by
  decide

/-- C6 (amended): for every well-formed tag content whose ids avoid the two
bypass ids 0x2bc and 0x9286, the buffer encoded with a little-endian header
and the buffer with the same content encoded with a big-endian header
decode to identical logical values: both headers are accepted with their
respective orders, both directories decode successfully, and the decoded
tag views (id, count, value strings) agree — and equal the content's
logical view. -/
theorem claim6_endianness_invariance (es : List (Nat × Payload))
    (hwf : wfEntries es) :
    readOrder (encodeFile .le es) = .ok .le ∧
    readOrder (encodeFile .be es) = .ok .be ∧
    ∃ tl tb,
      readTags (encodeFile .le es) .le 4 0 famTiff = .ok tl ∧
      readTags (encodeFile .be es) .be 4 0 famTiff = .ok tb ∧
      tl.map tagView = tb.map tagView ∧
      tl.map tagView = es.map entryView := by
  have hsub : ∀ e ∈ es, e.1 ≠ XmpId ∧ e.1 ≠ CommentId ∧ e.2.wf := by
    intro e he
    obtain ⟨-, h1, h2, h3, -⟩ := hwf.2.2.2 e he
    exact ⟨h1, h2, h3⟩
  refine ⟨readOrder_encodeFile .le es, readOrder_encodeFile .be es,
    encTags .le famTiff es (6 + 12 * es.length),
    encTags .be famTiff es (6 + 12 * es.length),
    readTags_encodeFile .le famTiff es hwf,
    readTags_encodeFile .be famTiff es hwf, ?_, ?_⟩
  · rw [encTags_map_view .le famTiff es _ hsub, encTags_map_view .be famTiff es _ hsub]
  · rw [encTags_map_view .le famTiff es _ hsub]

/-- Well-formedness of the two-entry witness content `es6w`. -/
theorem es6w_wf : wfEntries es6w := by
  refine ⟨?_, ?_, ?_, ?_⟩
  · refine List.chain'_cons.mpr ⟨?_, List.chain'_singleton _⟩
    norm_num
  · norm_num [es6w]
  · show 6 + 12 * es6w.length + extLen es6w < 4294967296
    norm_num [es6w, extLen, Payload.size, Payload.format, Payload.count, fmtSize]
  · intro e he
    simp only [es6w, List.mem_cons, List.mem_singleton, List.not_mem_nil, or_false]
      at he
    rcases he with rfl | rfl
    · refine ⟨by norm_num, by norm_num [XmpId], by norm_num [CommentId], ?_,
        by norm_num [Payload.count]⟩
      show ∀ v ∈ [5], v < 65536
      decide
    · refine ⟨by norm_num, by norm_num [XmpId], by norm_num [CommentId], ?_,
        by norm_num [Payload.count]⟩
      show ∀ v ∈ [((1 : Nat), (3 : Nat))], v.1 < 4294967296 ∧ v.2 < 4294967296
      decide

/-- C6 (amended, witness): the invariance theorem applied to the concrete
content `es6w` (an inline Short and an external Rational). -/
theorem claim6_witness :
    (readTags (encodeFile .le es6w) .le 4 0 famTiff).map (List.map tagView)
      = (readTags (encodeFile .be es6w) .be 4 0 famTiff).map (List.map tagView) := by
  obtain ⟨-, -, tl, tb, hl, hb, heq, -⟩ := claim6_endianness_invariance es6w es6w_wf
  rw [hl, hb]
  simp only [Except.map, List.map]
  rw [heq]

/-- C2 (witness): the sortedness invariant applied to the concrete
directory `dirTwo` (ids 3 then 7), whose decode succeeds. -/
theorem claim2_witness :
    ∃ out, readTags dirTwo .le 0 0 famTiff = .ok out ∧ List.Chain' idLt out := by
  refine ⟨_, rfl, ?_⟩
  exact claim2_ids_strictly_increasing.1 dirTwo .le 0 0 famTiff _ rfl

end Nef
